import Mathlib

/-!
A verification model of the corvusite-min markup toolchain.

The definitions below are shallow embeddings of the Rust sources:

* `wincomp/src/element.rs` — the markup node tree (`Node`, `Attr`).
* `wincomp/src/parse.rs`   — the hand-written winnow markup grammar
  (`identifier`, `parseString`, `parseAttr`, `advanceTo`, `parseNode`,
  `parseNodes`, `parseElement`).  Strings are modelled as `List Char`;
  winnow's two error modes (recoverable backtrack vs. fatal cut) are the
  two constructors of `PErr`.  The recursive grammar is defined with an
  explicit fuel parameter; exhausting fuel yields a `cut` error, so fuel
  can never manufacture a successful parse.  Rust's Unicode
  `char::is_alphabetic` / `is_alphanumeric` are modelled by their ASCII
  restrictions (`Char.isAlpha` / `Char.isAlphanum`); every input in the
  development is ASCII.
* `wincomp/src/lib.rs`     — the serializer (`writeNode`) and the
  component-expansion engine (`expandLoop`, `expand`); the expansion
  engine's in-place vector surgery becomes explicit list surgery, and the
  out-of-bounds indexing possible in `expand_recurse` is surfaced as the
  `ExpandRes.oob` outcome.
* `markcomp/src/visitor.rs` — the streaming markdown visitor
  (`htmlEncode`, `SV`, `mdSimple`, `mdParagraph`).
* `markcomp/src/pull.rs`    — the pulldown-cmark event writer's text
  handling (`Writer`, `writerEvent`); the upstream pulldown-cmark
  tokenizer itself is an external collaborator, so the writer is modelled
  as a state machine over its event stream.
* `markcomp/src/arena.rs`   — the arena with 16-bit handles
  (`NodeArena.insert`, `NodeArena.index`).
-/

namespace Corvusite

/-- A character string, modelling a Rust `&str` slice. -/
abbrev Str := List Char

/-- `wincomp::element::Attribute`: a name with an optional value. -/
structure Attr where
  name : Str
  value : Option Str
deriving DecidableEq, Repr

/-- `wincomp::element::Node` together with `Element`: an element carries its
name, attribute list and child list inline. -/
inductive Node where
  | text (s : Str)
  | comment (s : Str)
  | elem (name : Str) (attributes : List Attr) (children : List Node)
deriving Repr

mutual

/-- Structural boolean equality on nodes. -/
def nodeBeq : Node → Node → Bool
  | .text a, .text b => a == b
  | .comment a, .comment b => a == b
  | .elem n1 a1 c1, .elem n2 a2 c2 => n1 == n2 && a1 == a2 && nodesBeq c1 c2
  | _, _ => false

/-- Structural boolean equality on node lists. -/
def nodesBeq : List Node → List Node → Bool
  | [], [] => true
  | a :: as, b :: bs => nodeBeq a b && nodesBeq as bs
  | _, _ => false

end

mutual

theorem nodeBeq_iff : ∀ a b : Node, nodeBeq a b = true ↔ a = b
  | .text a, .text b => by simp [nodeBeq]
  | .comment a, .comment b => by simp [nodeBeq]
  | .elem n1 a1 c1, .elem n2 a2 c2 => by
      simp [nodeBeq, nodesBeq_iff c1 c2, and_assoc]
  | .text _, .comment _ => by simp [nodeBeq]
  | .text _, .elem _ _ _ => by simp [nodeBeq]
  | .comment _, .text _ => by simp [nodeBeq]
  | .comment _, .elem _ _ _ => by simp [nodeBeq]
  | .elem _ _ _, .text _ => by simp [nodeBeq]
  | .elem _ _ _, .comment _ => by simp [nodeBeq]

theorem nodesBeq_iff : ∀ a b : List Node, nodesBeq a b = true ↔ a = b
  | [], [] => by simp [nodesBeq]
  | a :: as, b :: bs => by
      simp [nodesBeq, nodeBeq_iff a b, nodesBeq_iff as bs]
  | [], _ :: _ => by simp [nodesBeq]
  | _ :: _, [] => by simp [nodesBeq]

end

instance : DecidableEq Node := fun a b => decidable_of_iff _ (nodeBeq_iff a b)

instance {ε α : Type} [DecidableEq ε] [DecidableEq α] : DecidableEq (Except ε α) :=
  fun a b =>
    match a, b with
    | .ok x, .ok y => decidable_of_iff (x = y) (by simp)
    | .error x, .error y => decidable_of_iff (x = y) (by simp)
    | .ok _, .error _ => .isFalse (by simp)
    | .error _, .ok _ => .isFalse (by simp)

/-! ## Serializer (`Document::write_element`, wincomp/src/lib.rs)

Self-closing tag when the child list is empty; otherwise open tag,
children, closing tag.  Attribute values are emitted verbatim inside
double quotes, value-less attributes as a bare name.  Text is emitted
verbatim; comments are emitted as nothing at all. -/

/-- Serialization of one attribute, including its leading space. -/
def writeAttr : Attr → Str
  | ⟨n, none⟩ => ' ' :: n
  | ⟨n, some v⟩ => ' ' :: n ++ '=' :: '"' :: v ++ ['"']

mutual

/-- Serialization of one node (`Document::write_element`, one iteration). -/
def writeNode : Node → Str
  | .text t => t
  | .comment _ => []
  | .elem name attrs children =>
      '<' :: name ++ (attrs.map writeAttr).flatten ++
        (if children.isEmpty then ['/', '>']
         else '>' :: writeNodes children ++ '<' :: '/' :: name ++ ['>'])

/-- Serialization of a node list (`Document::write_element`). -/
def writeNodes : List Node → Str
  | [] => []
  | n :: rest => writeNode n ++ writeNodes rest

end

/-! ## The markup grammar (wincomp/src/parse.rs) -/

/-- winnow's two error modes: recoverable backtrack vs. fatal cut. -/
inductive PErr where
  | backtrack
  | cut
deriving DecidableEq, Repr

/-- Result of a sub-grammar: a value and the remaining input, or an error. -/
abbrev PRes (α : Type) := Except PErr (α × Str)

/-- The character class of `ascii::multispace0`. -/
def isMultispace (c : Char) : Bool := c = ' ' || c = '\t' || c = '\r' || c = '\n'

/-- `multispace0`: drop leading ASCII whitespace (never fails). -/
def ms0 (s : Str) : Str := s.dropWhile isMultispace

/-- `char::is_alphabetic`, ASCII restriction. -/
def rsAlpha (c : Char) : Bool := c.isAlpha

/-- The identifier-continuation class: alphanumeric, `_` or `-`. -/
def isIdentChar (c : Char) : Bool := c.isAlphanum || c = '_' || c = '-'

/-- `take_while(1.., pred)`: longest nonempty matching run. -/
def takeWhile1 (p : Char → Bool) (s : Str) : PRes Str :=
  match s.takeWhile p with
  | [] => .error .backtrack
  | r => .ok (r, s.drop r.length)

/-- `parse::identifier`: peek an alphabetic first character, then a
nonempty run of identifier characters. -/
def identifier (s : Str) : PRes Str :=
  match s with
  | [] => .error .backtrack
  | c :: _ => if rsAlpha c then takeWhile1 isIdentChar s else .error .backtrack

/-- The scan loop of `parse_string`: stop at the first `"` whose
predecessor is not a backslash, tracking the previous character. -/
def scanString : Char → Str → Option (Str × Str)
  | _, [] => none
  | last, c :: rest =>
      if c = '"' && last ≠ '\\' then some ([], rest)
      else (scanString c rest).map (fun vr => (c :: vr.1, vr.2))

/-- `parse::parse_string`: a double-quoted value; an unterminated value is
a fatal (cut) error. -/
def parseString (s : Str) : PRes Str :=
  match s with
  | '"' :: rest =>
      match scanString '"' rest with
      | some (v, r) => .ok (v, r)
      | none => .error .cut
  | _ => .error .backtrack

/-- A literal token: match an exact prefix (backtrack otherwise). -/
def expectLit (pat : Str) (s : Str) : PRes Unit :=
  if pat.isPrefixOf s then .ok ((), s.drop pat.length) else .error .backtrack

/-- `parse::attribute`: an identifier with an optional `="value"`; the `opt`
combinator restores the input when `=` is absent, and propagates a cut
from an unterminated value. -/
def parseAttr (s : Str) : PRes Attr :=
  match identifier s with
  | .error e => .error e
  | .ok (name, s1) =>
      match ms0 s1 with
      | '=' :: s3 =>
          match parseString (ms0 s3) with
          | .ok (v, s4) => .ok (⟨name, some v⟩, s4)
          | .error .cut => .error .cut
          | .error .backtrack => .ok (⟨name, none⟩, s1)
      | _ => .ok (⟨name, none⟩, s1)

/-- `repeat(0.., preceded(multispace0, attribute))`: the attribute list of
an open tag, recursing on an input-length bound so that the definition
unfolds by iota reduction.  A backtrack ends the repetition; a cut
propagates.  The strict-consumption guard mirrors winnow's protection
against a parser that matches without consuming (unreachable here, as an
attribute always consumes at least one character); it also makes every
recursive call strictly shorter, so a bound exceeding the input length
never runs out. -/
def parseAttrsF : Nat → Str → Except PErr (List Attr × Str)
  | 0, _ => .error .cut
  | bound+1, s =>
      match parseAttr (ms0 s) with
      | .ok (a, r) =>
          if _h : r.length < s.length then
            match parseAttrsF bound r with
            | .ok (as, r') => .ok (a :: as, r')
            | .error e => .error e
          else .error .cut
      | .error .backtrack => .ok ([], s)
      | .error .cut => .error .cut

/-- The attribute list of an open tag, with the bound instantiated to the
always-sufficient input length. -/
def parseAttrs (s : Str) : Except PErr (List Attr × Str) :=
  parseAttrsF (s.length + 1) s

/-- The bound of `parseAttrsF` is invisible as long as it exceeds the
input length: the recursion consumes at least one character per step. -/
theorem parseAttrsF_congr : ∀ (b1 b2 : Nat) (s : Str), s.length < b1 → s.length < b2 →
    parseAttrsF b1 s = parseAttrsF b2 s := by
  intro b1
  induction b1 with
  | zero => intro b2 s h1 h2; omega
  | succ b1 ih =>
      intro b2 s h1 h2
      obtain ⟨b2, rfl⟩ : ∃ k, b2 = k + 1 := ⟨b2 - 1, by omega⟩
      rw [parseAttrsF, parseAttrsF]
      cases hpa : parseAttr (ms0 s) with
      | ok ar =>
          obtain ⟨a, r⟩ := ar
          simp only []
          by_cases hlt : r.length < s.length
          · rw [dif_pos hlt, dif_pos hlt, ih b2 r (by omega) (by omega)]
          · rw [dif_neg hlt, dif_neg hlt]
      | error e => cases e <;> rfl

/-- The unfolding equation of `parseAttrs` in its original recursive
form. -/
theorem parseAttrs_eq (s : Str) :
    parseAttrs s =
      (match parseAttr (ms0 s) with
       | .ok (a, r) =>
           if _h : r.length < s.length then
             match parseAttrs r with
             | .ok (as, r') => .ok (a :: as, r')
             | .error e => .error e
           else .error .cut
       | .error .backtrack => .ok ([], s)
       | .error .cut => .error .cut) := by
  rw [parseAttrs, parseAttrsF]
  cases hpa : parseAttr (ms0 s) with
  | ok ar =>
      obtain ⟨a, r⟩ := ar
      simp only []
      by_cases hlt : r.length < s.length
      · rw [dif_pos hlt, dif_pos hlt,
          parseAttrsF_congr s.length (r.length + 1) r (by omega) (by omega)]
        rfl
      · rw [dif_neg hlt, dif_neg hlt]
  | error e => cases e <;> rfl

/-- `parse::closing_tag`: `</`, the tag name (whitespace allowed around
it), `>`. -/
def closingTag (name : Str) (s : Str) : PRes Unit :=
  match expectLit ['<', '/'] s with
  | .error e => .error e
  | .ok (_, s1) =>
      match expectLit name (ms0 s1) with
      | .error e => .error e
      | .ok (_, s2) =>
          match expectLit ['>'] (ms0 s2) with
          | .error e => .error e
          | .ok (_, s3) => .ok ((), s3)

/-- `parse::advance_to`: scan for the hint character and attempt the inner
grammar at every occurrence; return the prefix before the first success
together with that success.  Exhausting the input is a fatal (cut)
error.  A failed attempt is skipped regardless of its error mode. -/
def advanceTo {α : Type} (p : Str → PRes α) (hint : Char) : Str → Except PErr (Str × α × Str)
  | [] => .error .cut
  | c :: rest =>
      if c = hint then
        match p (c :: rest) with
        | .ok (o, r) => .ok ([], o, r)
        | .error _ =>
            match advanceTo p hint rest with
            | .ok (pre, o, r) => .ok (c :: pre, o, r)
            | .error e => .error e
      else
        match advanceTo p hint rest with
        | .ok (pre, o, r) => .ok (c :: pre, o, r)
        | .error e => .error e

/-- `take_until(1.., '<')`: the nonempty run before the first `<`; fails
(backtrack) when no `<` follows or the run would be empty. -/
def takeUntilLt (s : Str) : PRes Str :=
  let pre := s.takeWhile (fun c => c ≠ '<')
  if pre.length = s.length then .error .backtrack
  else if pre.isEmpty then .error .backtrack
  else .ok (pre, s.drop pre.length)

/-- The raw-text tag names (`script`, `style`). -/
def rawNames : List Str := ["script".toList, "style".toList]

/-- The void tag names (`hr`, `input`, `link`, `img`). -/
def voidNames : List Str := ["hr".toList, "input".toList, "link".toList, "img".toList]

mutual

/-- `parse::node`: dispatch on the first character — `<` leads to a comment
or an element, anything else to a text run. -/
def parseNode : Nat → Str → PRes Node
  | 0, _ => .error .cut
  | fuel+1, s =>
    match s with
    | [] => .error .backtrack
    | c :: _ =>
      if c = '<' then
        match expectLit "<!--".toList s with
        | .ok (_, s1) =>
            match advanceTo (expectLit "-->".toList) '-' s1 with
            | .ok (t, _, r) => .ok (.comment t, r)
            | .error _ => .error .cut
        | .error _ => parseElement fuel s
      else
        match takeUntilLt s with
        | .ok (t, r) => .ok (.text t, r)
        | .error e => .error e

/-- `parse::nodes`: `repeat(0.., node)`.  A backtrack ends the repetition,
a cut propagates; the zero-consumption guard mirrors winnow (unreachable,
as a node always consumes). -/
def parseNodes : Nat → Str → Except PErr (List Node × Str)
  | 0, _ => .error .cut
  | fuel+1, s =>
    match parseNode fuel s with
    | .ok (n, r) =>
        if r.length < s.length then
          match parseNodes fuel r with
          | .ok (ns, r') => .ok (n :: ns, r')
          | .error e => .error e
        else .error .cut
    | .error .backtrack => .ok ([], s)
    | .error .cut => .error .cut

/-- `parse::element`: `<`, identifier, attributes, then either `/>`
(childless) or `>` followed by the name-directed body — raw text for
`script`/`style`, nothing for the void tags, and otherwise child nodes
with a mandatory (`cut_err`) closing tag. -/
def parseElement : Nat → Str → PRes Node
  | 0, _ => .error .cut
  | fuel+1, s =>
    match s with
    | '<' :: s0 =>
      match identifier s0 with
      | .error e => .error e
      | .ok (name, s1) =>
        match parseAttrs s1 with
        | .error e => .error e
        | .ok (attrs, s2) =>
          match ms0 s2 with
          | '/' :: '>' :: s3 => .ok (.elem name attrs [], s3)
          | '>' :: s3 =>
              if name ∈ rawNames then
                match advanceTo (closingTag name) '<' s3 with
                | .ok (t, _, r) => .ok (.elem name attrs [.text t], r)
                | .error _ => .error .cut
              else if name ∈ voidNames then
                .ok (.elem name attrs [], s3)
              else
                match parseNodes fuel s3 with
                | .error e => .error e
                | .ok (children, s4) =>
                    match closingTag name (ms0 s4) with
                    | .ok (_, s5) => .ok (.elem name attrs children, s5)
                    | .error _ => .error .cut
          | _ => .error .backtrack
    | _ => .error .backtrack

end

/-- `Document::new`: parse a node list and require the whole input to be
consumed. -/
def documentNew (fuel : Nat) (s : Str) : Except PErr (List Node) :=
  match parseNodes fuel s with
  | .ok (ns, []) => .ok ns
  | .ok _ => .error .backtrack
  | .error e => .error e

/-! ## Component expansion (`Document::expand` / `expand_recurse`,
wincomp/src/lib.rs)

The Rust engine rewrites a `Vec<Node>` in place while iterating it by
index.  The model passes the list explicitly.  `expand_recurse` becomes
`expandLoop` (one `while index < nodes.len()` loop, with the recursion
into children inlined at the point the Rust code performs it), guarded by
fuel because a self-inserting component makes even a single pass diverge.
`nodes[index]` evaluated after the splice can read one past the end of
the shortened list; that panic is the explicit outcome
`ExpandRes.oob`. -/

/-- `Component`: the fields of its root element. -/
structure Component where
  name : Str
  attributes : List Attr
  children : List Node
deriving DecidableEq, Repr

/-- The child list of a node (empty for text and comments). -/
def Node.childrenOf : Node → List Node
  | .elem _ _ c => c
  | _ => []

/-- The replacement attribute set: for every attribute declared on the
component root, the call site's attribute of the same name if present,
else the declared attribute itself. -/
def buildRepl (declared : List Attr) (callAttrs : List Attr) : List Attr :=
  declared.map (fun d =>
    match callAttrs.find? (fun a => a.name == d.name) with
    | some a => a
    | none => d)

/-- One attribute under dynamic binding: if its value textually equals the
name of some replacement attribute (first match), it is replaced by that
replacement's value. -/
def assignAttr (repl : List Attr) (attr : Attr) : Attr :=
  match attr.value with
  | some v =>
      match repl.find? (fun a => a.name == v) with
      | some a => { attr with value := a.value }
      | none => attr
  | none => attr

mutual

/-- `element::walk` with the attribute-assignment body: rewrite every
attribute of every element in the subtree. -/
def substNode (repl : List Attr) : Node → Node
  | .elem name attrs children =>
      .elem name (attrs.map (assignAttr repl)) (substNodes repl children)
  | n => n

/-- `substNode` over a child list. -/
def substNodes (repl : List Attr) : List Node → List Node
  | [] => []
  | n :: rest => substNode repl n :: substNodes repl rest

end

/-- `Iterator::position`: index of the first match. -/
def listPos (p : Str → Bool) : List Str → Option Nat
  | [] => none
  | nm :: rest => if p nm then some 0 else (listPos p rest).map (· + 1)

/-- The index of the outlet among the *element* children only (the
`filter_map(..).position(..)` in `expand_recurse`): the position of the
first element child named `children` within the filtered element list. -/
def outletIdx (children : List Node) : Option Nat :=
  listPos (fun nm => nm == "children".toList)
    (children.filterMap (fun n =>
      match n with
      | .elem nm _ _ => some nm
      | _ => none))

mutual

/-- `element::find_mut` specialised to the outlet predicate, fused with the
outlet surgery: depth-first, root first, find the first element one of
whose element children is named `children`; remove the child at the
filtered index from that element's full child list and append the call
site's children at the end.  `none` when no element in the subtree has an
outlet child. -/
def spliceNode (callCh : List Node) : Node → Option Node
  | .elem nm at_ ch =>
      match outletIdx ch with
      | some i => some (.elem nm at_ (ch.eraseIdx i ++ callCh))
      | none =>
          match spliceList callCh ch with
          | some ch' => some (.elem nm at_ ch')
          | none => none
  | _ => none

/-- `spliceNode` over the element children of a list, in order. -/
def spliceList (callCh : List Node) : List Node → Option (List Node)
  | [] => none
  | n :: rest =>
      match spliceNode callCh n with
      | some n' => some (n' :: rest)
      | none =>
          match spliceList callCh rest with
          | some rest' => some (n :: rest')
          | none => none

end

/-- Outcome of an expansion pass: the rewritten list with the mutation
flag, the out-of-bounds indexing panic, or fuel exhaustion. -/
inductive ExpandRes where
  | ok (nodes : List Node) (mutated : Bool)
  | oob
  | nofuel
deriving DecidableEq, Repr

/-- The copied, attribute-bound, outlet-spliced component body a matched
reference is replaced with (steps 2–4 of the per-element work in
`expand_recurse`): build the replacement attributes, clone and rewrite
the component root, then splice the call site's children at the first
outlet. -/
def expandBody (comp : Component) (callAttrs : List Attr) (callCh : List Node) : List Node :=
  let repl := buildRepl comp.attributes callAttrs
  let copy : Node := .elem comp.name (comp.attributes.map (assignAttr repl))
    (substNodes repl comp.children)
  let spliced := (spliceNode callCh copy).getD copy
  spliced.childrenOf

/-- The `while index < nodes.len()` loop of `expand_recurse`.  On a
component match the reference is removed and the copied body spliced in;
afterwards `nodes[index]` is read again — an out-of-bounds read
(`.oob`) exactly when the body was empty and the reference was last.
The recursion into the children at `nodes[index]` is the
`expand_recurse(&mut child.children, ..)` call. -/
def expandLoop : Nat → List Component → List Node → Nat → Bool → ExpandRes
  | 0, _, _, _, _ => .nofuel
  | fuel+1, comps, nodes, index, mutated =>
    if hix : index < nodes.length then
      match nodes[index] with
      | .elem name attrs children =>
          match comps.find? (fun c => c.name == name) with
          | some comp =>
              let nodes' := nodes.take index ++ expandBody comp attrs children
                ++ nodes.drop (index + 1)
              if hix' : index < nodes'.length then
                match nodes'[index] with
                | .elem nm2 at2 ch2 =>
                    match expandLoop fuel comps ch2 0 false with
                    | .ok ch2' _ =>
                        expandLoop fuel comps (nodes'.set index (.elem nm2 at2 ch2'))
                          (index + 1) true
                    | e => e
                | _ => expandLoop fuel comps nodes' (index + 1) true
              else .oob
          | none =>
              match expandLoop fuel comps children 0 false with
              | .ok ch' m =>
                  expandLoop fuel comps (nodes.set index (.elem name attrs ch'))
                    (index + 1) (mutated || m)
              | e => e
      | _ => expandLoop fuel comps nodes (index + 1) mutated
    else .ok nodes mutated

/-- `Document::expand_recurse`: one full pass from index 0. -/
def expandRecurse (fuel : Nat) (comps : List Component) (nodes : List Node) : ExpandRes :=
  expandLoop fuel comps nodes 0 false

/-- `Document::expand`: repeat passes until one reports no mutation. -/
def expand : Nat → Nat → List Component → List Node → ExpandRes
  | 0, _, _, _ => .nofuel
  | loopFuel+1, recFuel, comps, nodes =>
    match expandRecurse recFuel comps nodes with
    | .ok nodes' true => expand loopFuel recFuel comps nodes'
    | .ok nodes' false => .ok nodes' false
    | e => e

/-! ## The markdown arena (markcomp/src/arena.rs)

`NodeArena` is an append-only `Vec`; a handle is a 16-bit index.  The
indexing behaviour under scrutiny is independent of the element type, so
the arena is modelled over an arbitrary element type; `NodeId(id as u16)`
becomes reduction modulo `2^16`, and the panicking `Index` impl becomes
an optional lookup (`none` = out-of-bounds panic). -/

/-- `as u16`: truncation to 16 bits. -/
def u16cast (n : Nat) : Nat := n % 65536

/-- `arena::NodeId`: a 16-bit handle (the truncation happens at creation). -/
structure NodeId where
  val : Nat
deriving DecidableEq, Repr

namespace NodeArena

/-- `NodeArena::insert`: push the node and hand back `NodeId(len as u16)` —
no overflow check. -/
def insert {α : Type} (arena : List α) (node : α) : List α × NodeId :=
  (arena ++ [node], ⟨u16cast arena.length⟩)

/-- The `Index<NodeId>` impl: `&self.0[index.0 as usize]`
(`none` models the out-of-bounds panic). -/
def index {α : Type} (arena : List α) (id : NodeId) : Option α :=
  arena[id.val]?

end NodeArena

/-! ## Generic helpers -/

/-- Replacing an entry of a list by the value already there changes
nothing. -/
theorem list_set_getElem_self {α : Type} (l : List α) (i : Nat) (h : i < l.length) :
    l.set i l[i] = l := by
  induction l generalizing i with
  | nil => simp at h
  | cons a t ih =>
      cases i with
      | zero => simp
      | succ j => simp only [List.set_cons_succ, List.getElem_cons_succ]; rw [ih]

/-- Erasing at the index right after a prefix removes the element there. -/
theorem list_eraseIdx_mid {α : Type} (l1 l2 : List α) (x : α) :
    (l1 ++ x :: l2).eraseIdx l1.length = l1 ++ l2 := by
  induction l1 with
  | nil => simp [List.eraseIdx]
  | cons a t ih => simp [List.eraseIdx, ih]

mutual

/-- Total constructor weight of a node (used only as an expansion fuel
budget). -/
def sizeN : Node → Nat
  | .elem _ _ ch => 1 + sizeL ch
  | _ => 1

/-- Total constructor weight of a node list. -/
def sizeL : List Node → Nat
  | [] => 1
  | n :: rest => sizeN n + sizeL rest

end

theorem sizeN_pos (n : Node) : 1 ≤ sizeN n := by
  cases n <;> simp [sizeN]

theorem sizeL_pos (l : List Node) : 1 ≤ sizeL l := by
  cases l with
  | nil => simp [sizeL]
  | cons n rest => have := sizeN_pos n; simp [sizeL]; omega

mutual

/-- A node none of whose subtree elements is named after any component:
the expansion engine has nothing to do anywhere inside it. -/
def inertN (comps : List Component) : Node → Bool
  | .elem name _ children =>
      (comps.find? (fun c => c.name == name)).isNone && inertL comps children
  | _ => true

/-- `inertN` over a list. -/
def inertL (comps : List Component) : List Node → Bool
  | [] => true
  | n :: rest => inertN comps n && inertL comps rest

end

theorem inertL_mem {comps : List Component} {l : List Node} (h : inertL comps l = true)
    {n : Node} (hn : n ∈ l) : inertN comps n = true := by
  induction l with
  | nil => cases hn
  | cons a t ih =>
      simp only [inertL, Bool.and_eq_true] at h
      rcases hn with _ | hn
      · exact h.1
      · exact ih h.2 (by assumption)

theorem sizeL_drop_le (l : List Node) (i : Nat) : sizeL (l.drop i) ≤ sizeL l := by
  induction l generalizing i with
  | nil => simp
  | cons a t ih =>
      cases i with
      | zero => simp
      | succ j =>
          have h1 := ih j
          have h2 := sizeN_pos a
          simp only [List.drop_succ_cons]
          simp [sizeL]; omega

/-- On a list whose suffix from `index` on is inert, the expansion loop is
the identity: it reports whatever mutation flag it was handed and never
touches the list. -/
theorem expandLoop_inert (comps : List Component) :
    ∀ (fuel : Nat) (nodes : List Node) (index : Nat) (m : Bool),
    inertL comps (nodes.drop index) = true →
    sizeL (nodes.drop index) ≤ fuel →
    expandLoop fuel comps nodes index m = .ok nodes m := by
  intro fuel
  induction fuel with
  | zero =>
      intro nodes index m _ hf
      have := sizeL_pos (nodes.drop index); omega
  | succ f ih =>
      intro nodes index m hin hf
      rw [expandLoop]
      split
      case isTrue hix =>
        have hdrop : nodes.drop index = nodes[index] :: nodes.drop (index + 1) :=
          List.drop_eq_getElem_cons hix
        rw [hdrop] at hin hf
        simp only [inertL, Bool.and_eq_true] at hin
        simp only [sizeL] at hf
        split
        case h_1 name attrs children hnode =>
          rw [hnode] at hin
          simp only [inertN, Bool.and_eq_true, Option.isNone_iff_eq_none] at hin
          rw [hin.1.1]
          have hszn : sizeN (Node.elem name attrs children) = 1 + sizeL children := rfl
          rw [hnode, hszn] at hf
          rw [ih children 0 false (by simpa using hin.1.2) (by simp; omega)]
          have hset : nodes.set index (Node.elem name attrs children) = nodes := by
            rw [← hnode]; exact list_set_getElem_self nodes index hix
          simp only [hset, Bool.or_false]
          exact ih nodes (index + 1) m hin.2 (by have := sizeL_pos children; omega)
        case h_2 x =>
          exact ih nodes (index + 1) m hin.2
            (by have hn := sizeN_pos nodes[index]; omega)
      case isFalse => rfl

/-- A pass that reports `mutated = false` changed nothing: the flag is set
on every component match, only grows, and the mutation-free paths
re-install each child list exactly as it was. -/
theorem expandLoop_ok_false (comps : List Component) :
    ∀ (fuel : Nat) (nodes : List Node) (index : Nat) (m : Bool) (out : List Node),
    expandLoop fuel comps nodes index m = .ok out false → out = nodes ∧ m = false := by
  intro fuel
  induction fuel with
  | zero => intro nodes index m out h; simp [expandLoop] at h
  | succ f ih =>
      intro nodes index m out h
      rw [expandLoop] at h
      split at h
      case isTrue hix =>
        split at h
        case h_1 name attrs children hnode =>
          cases hfind : comps.find? (fun c => c.name == name) with
          | none =>
              rw [hfind] at h
              cases hrec : expandLoop f comps children 0 false with
              | ok ch' mc =>
                  rw [hrec] at h
                  obtain ⟨hout, hflag⟩ := ih _ _ _ _ h
                  have hm : m = false := by cases m <;> simp_all
                  have hmc : mc = false := by cases mc <;> simp_all
                  subst hmc
                  obtain ⟨hch, -⟩ := ih _ _ _ _ hrec
                  subst hch
                  refine ⟨?_, hm⟩
                  rw [hout, ← hnode, list_set_getElem_self nodes index hix]
              | oob => rw [hrec] at h; exact absurd h (by simp)
              | nofuel => rw [hrec] at h; exact absurd h (by simp)
          | some comp =>
              rw [hfind] at h
              simp only at h
              split at h
              case isTrue hix' =>
                split at h
                case h_1 nm2 at2 ch2 _ =>
                  cases hrec : expandLoop f comps ch2 0 false with
                  | ok ch2' mc =>
                      rw [hrec] at h
                      obtain ⟨-, hflag⟩ := ih _ _ _ _ h
                      exact absurd hflag (by simp)
                  | oob => rw [hrec] at h; exact absurd h (by simp)
                  | nofuel => rw [hrec] at h; exact absurd h (by simp)
                case h_2 x =>
                  obtain ⟨-, hflag⟩ := ih _ _ _ _ h
                  exact absurd hflag (by simp)
              case isFalse => exact absurd h (by simp)
        case h_2 x =>
          exact ih _ _ _ _ h
      case isFalse =>
        rw [ExpandRes.ok.injEq] at h
        exact ⟨h.1.symm, h.2⟩

/-- C2: expansion is idempotent.  Whenever `Document::expand` completes on
some node list and component list, the pass run by a second `expand` on
its output performs zero substitutions — `expand_recurse` reports
`mutated = false` on its first pass and leaves the node list unchanged —
so the second `expand` is a no-op returning the same list. -/
theorem C2_expand_idempotent (loopFuel recFuel : Nat) (comps : List Component)
    (nodes out : List Node) (b : Bool)
    (h : expand loopFuel recFuel comps nodes = .ok out b) :
    expandRecurse recFuel comps out = .ok out false ∧
    expand 1 recFuel comps out = .ok out false := by
  induction loopFuel generalizing nodes with
  | zero => simp [expand] at h
  | succ lf ih =>
      rw [expand] at h
      cases hrec : expandRecurse recFuel comps nodes with
      | ok ns mflag =>
          rw [hrec] at h
          cases mflag with
          | true => exact ih ns h
          | false =>
              have hns : ns = nodes := (expandLoop_ok_false comps _ _ _ _ _ hrec).1
              have hout : out = ns := by
                rw [ExpandRes.ok.injEq] at h
                exact h.1.symm
              subst hout
              have h1 : expandRecurse recFuel comps out = .ok out false := by
                rw [hns] at hrec ⊢
                exact hrec
              refine ⟨h1, ?_⟩
              rw [expand, h1]
      | oob => rw [hrec] at h; exact absurd h (by simp)
      | nofuel => rw [hrec] at h; exact absurd h (by simp)

/-- Witness for C2 at a concrete completed expansion. -/
theorem C2_expand_idempotent_witness :
    expandRecurse 2 [] [Node.text ['x']] = .ok [Node.text ['x']] false ∧
    expand 1 2 [] [Node.text ['x']] = .ok [Node.text ['x']] false :=
  C2_expand_idempotent 1 2 [] [Node.text ['x']] [Node.text ['x']] false (by decide)

/-- C9: `NodeArena::insert` hands back `NodeId(len as u16)` with no
overflow check.  Once the arena holds 65536 or more nodes, the returned
handle equals the node count modulo `2^16`, which addresses a strictly
earlier slot: indexing the handle reads that earlier slot, so it does not
retrieve the inserted node (whenever the aliased slot holds a different
value), and no error is reported anywhere. -/
theorem C9_arena_insert_wraps {α : Type} (arena : List α) (node : α)
    (h : 65536 ≤ arena.length) :
    (NodeArena.insert arena node).2.val = arena.length % 65536 ∧
    (NodeArena.insert arena node).2.val < arena.length ∧
    NodeArena.index (NodeArena.insert arena node).1 (NodeArena.insert arena node).2
      = arena[arena.length % 65536]? ∧
    (arena[arena.length % 65536]? ≠ some node →
      NodeArena.index (NodeArena.insert arena node).1 (NodeArena.insert arena node).2
        ≠ some node) := by
  have hlt : arena.length % 65536 < arena.length :=
    lt_of_lt_of_le (Nat.mod_lt _ (by norm_num)) h
  refine ⟨rfl, hlt, ?_, ?_⟩
  · show (arena ++ [node])[arena.length % 65536]? = _
    exact List.getElem?_append_left hlt
  · intro hne
    show (arena ++ [node])[arena.length % 65536]? ≠ some node
    rw [List.getElem?_append_left hlt]
    exact hne

/-- Witness for C9 on a full arena: the wrapped handle addresses slot 0,
an earlier node. -/
theorem C9_arena_insert_wraps_witness :
    (NodeArena.insert (List.replicate 65536 (0 : Nat)) 1).2.val
      < (List.replicate 65536 (0 : Nat)).length :=
  (C9_arena_insert_wraps (List.replicate 65536 (0 : Nat)) 1
    (List.length_replicate 65536 0).ge).2.1

/-- C10: `expand_recurse` can index out of bounds.  With a component whose
root has no children and a call site that is the last node of its list,
the reference is removed, zero nodes are inserted, and the re-read of
`nodes[index]` happens at the new length — the out-of-bounds panic,
surfaced here as `.oob` (the source's own comment concedes this:
"technically this can panic if the component has no children"). -/
theorem C10_expand_recurse_oob :
    expandRecurse 5 [⟨"Box".toList, [], []⟩] [Node.elem "Box".toList [] []] = .oob ∧
    expand 5 5 [⟨"Box".toList, [], []⟩] [Node.elem "Box".toList [] []] = .oob := by
  constructor <;> rfl

/-! ## C1: where the outlet splice actually puts the call site's children -/

theorem assignAttr_nil (a : Attr) : assignAttr [] a = a := by
  cases a with
  | mk n v => cases v <;> rfl

mutual

theorem substNode_nil : ∀ n : Node, substNode [] n = n
  | .text _ => rfl
  | .comment _ => rfl
  | .elem name attrs children => by
      rw [substNode, substNodes_nil children]
      congr 1
      induction attrs with
      | nil => rfl
      | cons a t ih => rw [List.map_cons, assignAttr_nil, ih]

theorem substNodes_nil : ∀ l : List Node, substNodes [] l = l
  | [] => rfl
  | n :: rest => by rw [substNodes, substNode_nil n, substNodes_nil rest]

end

/-- A node that is an element not named `children`. -/
def elemNotOutlet : Node → Bool
  | .elem nm _ _ => nm ≠ "children".toList
  | _ => false

/-- The filtered-index computation of `expand_recurse` on a child list
whose prefix consists of elements not named `children` finds the outlet at
the prefix length. -/
theorem outletIdx_append (pre : List Node) (oattrs : List Attr) (och post : List Node)
    (hpre : ∀ n ∈ pre, elemNotOutlet n = true) :
    outletIdx (pre ++ Node.elem "children".toList oattrs och :: post) = some pre.length := by
  induction pre with
  | nil =>
      simp [outletIdx, listPos]
  | cons a t ih =>
      have ha := hpre a (by simp)
      have ht : ∀ n ∈ t, elemNotOutlet n = true := fun n hn => hpre n (by simp [hn])
      cases a with
      | text s => simp [elemNotOutlet] at ha
      | comment s => simp [elemNotOutlet] at ha
      | elem nm at_ ch =>
          simp only [elemNotOutlet, decide_eq_true_eq] at ha
          have hrec := ih ht
          simp only [outletIdx, List.cons_append, List.filterMap_cons] at hrec ⊢
          rw [listPos]
          have hbeq : (nm == "children".toList) = false := by
            simpa using ha
          rw [hbeq]
          simp only [if_false, Bool.false_eq_true]
          rw [hrec]
          simp

/-- On a component root with no declared attributes whose children are an
element-only prefix, the outlet, and a suffix, the copied body is the
prefix, then the suffix, then the call site's children appended at the
end — not the children at the outlet's position. -/
theorem expandBody_appends (bname : Str) (oattrs : List Attr) (och : List Node)
    (pre post callCh : List Node) (cattrs : List Attr)
    (hpre : ∀ n ∈ pre, elemNotOutlet n = true) :
    expandBody ⟨bname, [], pre ++ Node.elem "children".toList oattrs och :: post⟩
      cattrs callCh = pre ++ post ++ callCh := by
  show Node.childrenOf _ = _
  rw [show buildRepl [] cattrs = [] from rfl]
  rw [substNodes_nil]
  rw [show ([] : List Attr).map (assignAttr []) = [] from rfl]
  rw [spliceNode]
  rw [outletIdx_append pre oattrs och post hpre]
  simp only [Option.getD_some]
  rw [Node.childrenOf]
  rw [show pre.length = (pre : List Node).length from rfl]
  rw [list_eraseIdx_mid]

/-- C1 counterexample: with component `<Box><header/><children/><footer/></Box>`
and call site `<Box>A<b>B</b></Box>`, `Document::expand` does *not* produce
`<header/>A<b>B</b><footer/>`; it produces `<header/><footer/>A<b>B</b>` —
the outlet marker is removed, but the call site's children are appended
after the remaining siblings instead of spliced at the outlet's
position. -/
theorem C1_outlet_splice_counterexample :
    expand 4 32
      [⟨"Box".toList, [],
        [Node.elem "header".toList [] [], Node.elem "children".toList [] [],
         Node.elem "footer".toList [] []]⟩]
      [Node.elem "Box".toList [] [Node.text "A".toList,
        Node.elem "b".toList [] [Node.text "B".toList]]]
      = .ok [Node.elem "header".toList [] [], Node.elem "footer".toList [] [],
             Node.text "A".toList, Node.elem "b".toList [] [Node.text "B".toList]] false ∧
    ([Node.elem "header".toList [] [], Node.elem "footer".toList [] [],
      Node.text "A".toList, Node.elem "b".toList [] [Node.text "B".toList]] : List Node) ≠
    [Node.elem "header".toList [] [], Node.text "A".toList,
     Node.elem "b".toList [] [Node.text "B".toList], Node.elem "footer".toList [] []] := by
  constructor <;> decide

/-- C1 amended: when a component root (with no declared attributes) has
children consisting of a prefix of non-outlet elements, the outlet, and a
suffix, expanding a call site removes the outlet marker and *appends* the
call site's children at the end of the root's child list: the result is
prefix, then suffix, then call-site children, each group keeping its
internal order. -/
theorem C1_outlet_children_appended (bname : Str) (oattrs cattrs : List Attr)
    (och pre post callCh : List Node) (lf rf : Nat)
    (hpre : ∀ n ∈ pre, elemNotOutlet n = true)
    (hinert : inertL [⟨bname, [], pre ++ Node.elem "children".toList oattrs och :: post⟩]
      (pre ++ post ++ callCh) = true)
    (hne : pre ++ post ++ callCh ≠ [])
    (hlf : 2 ≤ lf)
    (hrf : sizeL (pre ++ post ++ callCh) + 1 ≤ rf) :
    expand lf rf [⟨bname, [], pre ++ Node.elem "children".toList oattrs och :: post⟩]
      [Node.elem bname cattrs callCh]
      = .ok (pre ++ post ++ callCh) false := by
  set comp : Component := ⟨bname, [], pre ++ Node.elem "children".toList oattrs och :: post⟩
    with hcomp
  have hbody : expandBody comp cattrs callCh = pre ++ post ++ callCh :=
    expandBody_appends bname oattrs och pre post callCh cattrs hpre
  generalize hBdef : pre ++ post ++ callCh = B at hinert hne hrf hbody ⊢
  obtain ⟨rf', rfl⟩ : ∃ k, rf = k + 1 := ⟨rf - 1, by omega⟩
  have hrf' : sizeL B ≤ rf' := by omega
  obtain ⟨lf', rfl⟩ : ∃ k, lf = k + 1 := ⟨lf - 1, by omega⟩
  have hlf' : 1 ≤ lf' := by omega
  have hlen : 0 < B.length := List.length_pos.mpr hne
  have hpass1 : expandRecurse (rf' + 1) [comp] [Node.elem bname cattrs callCh]
      = .ok B true := by
    rw [expandRecurse, expandLoop]
    rw [dif_pos (by simp)]
    have hget : ([Node.elem bname cattrs callCh] : List Node)[0] = Node.elem bname cattrs callCh := rfl
    have hfind : ([comp] : List Component).find? (fun c => c.name == bname) = some comp := by
      simp [List.find?, hcomp]
    simp only [hget, hfind, hbody, List.take_zero, List.drop_succ_cons, List.drop_zero,
      List.nil_append, List.append_nil]
    rw [dif_pos hlen]
    cases B with
    | nil => exact absurd rfl hne
    | cons b0 brest =>
        simp only [inertL, Bool.and_eq_true] at hinert
        have hszcons : sizeL (b0 :: brest) = sizeN b0 + sizeL brest := rfl
        rw [hszcons] at hrf'
        cases b0 with
        | elem nm2 at2 ch2 =>
            simp only [List.getElem_cons_zero]
            have hchin : inertL [comp] ch2 = true := by
              have := hinert.1
              simp only [inertN, Bool.and_eq_true] at this
              exact this.2
            have hsz2 : sizeN (Node.elem nm2 at2 ch2) = 1 + sizeL ch2 := rfl
            rw [hsz2] at hrf'
            rw [expandLoop_inert [comp] rf' ch2 0 false (by simpa using hchin)
              (by simpa using (by omega : sizeL ch2 ≤ rf'))]
            show expandLoop rf' [comp]
              ((Node.elem nm2 at2 ch2 :: brest).set 0 (Node.elem nm2 at2 ch2)) (0 + 1) true
              = ExpandRes.ok (Node.elem nm2 at2 ch2 :: brest) true
            have hset : (Node.elem nm2 at2 ch2 :: brest).set 0 (Node.elem nm2 at2 ch2)
                = Node.elem nm2 at2 ch2 :: brest := rfl
            rw [hset]
            exact expandLoop_inert [comp] rf' (Node.elem nm2 at2 ch2 :: brest) 1 true
              (by simpa using hinert.2) (by simpa using (by omega : sizeL brest ≤ rf'))
        | text s =>
            simp only [List.getElem_cons_zero]
            exact expandLoop_inert [comp] rf' (Node.text s :: brest) 1 true
              (by simpa using hinert.2) (by simpa using (by omega : sizeL brest ≤ rf'))
        | comment s =>
            simp only [List.getElem_cons_zero]
            exact expandLoop_inert [comp] rf' (Node.comment s :: brest) 1 true
              (by simpa using hinert.2) (by simpa using (by omega : sizeL brest ≤ rf'))
  obtain ⟨lf'', rfl⟩ : ∃ k, lf' = k + 1 := ⟨lf' - 1, by omega⟩
  have hpass2 : expandRecurse (rf' + 1) [comp] B = .ok B false :=
    expandLoop_inert [comp] (rf' + 1) B 0 false (by simpa using hinert)
      (by simp; omega)
  rw [expand, hpass1]
  show expand (lf'' + 1) (rf' + 1) [comp] B = .ok B false
  rw [expand, hpass2]

/-- Witness for C1 amended at the claim's own example. -/
theorem C1_outlet_children_appended_witness :
    expand 2 10
      [⟨"Box".toList, [],
        [Node.elem "header".toList [] [], Node.elem "children".toList [] [],
         Node.elem "footer".toList [] []]⟩]
      [Node.elem "Box".toList [] [Node.text "A".toList,
        Node.elem "b".toList [] [Node.text "B".toList]]]
      = .ok ([Node.elem "header".toList [] []] ++ [Node.elem "footer".toList [] []]
          ++ [Node.text "A".toList, Node.elem "b".toList [] [Node.text "B".toList]]) false :=
  C1_outlet_children_appended "Box".toList [] [] []
    [Node.elem "header".toList [] []] [Node.elem "footer".toList [] []]
    [Node.text "A".toList, Node.elem "b".toList [] [Node.text "B".toList]]
    2 10 (by decide) (by decide) (by decide) (by decide) (by decide)

/-! ## C3: dynamic attribute binding -/

theorem assignAttr_cons_skip (x : Attr) (repl : List Attr) (attr : Attr) (v : Str)
    (hval : attr.value = some v) (hx : (x.name == v) = false) :
    assignAttr (x :: repl) attr = assignAttr repl attr := by
  simp [assignAttr, hval, List.find?, hx]

theorem assignAttr_cons_hit (x : Attr) (repl : List Attr) (attr : Attr) (v : Str)
    (hval : attr.value = some v) (hx : (x.name == v) = true) :
    (assignAttr (x :: repl) attr).value = x.value := by
  simp [assignAttr, hval, List.find?, hx]

theorem buildRepl_head_name (callAttrs : List Attr) (d0 : Attr) :
    (match callAttrs.find? (fun (a : Attr) => a.name == d0.name) with
     | some a => a
     | none => d0).name = d0.name := by
  cases hfind : callAttrs.find? (fun (a : Attr) => a.name == d0.name) with
  | none => rfl
  | some a =>
      have := List.find?_some hfind
      simpa using eq_of_beq this

/-- C3: attribute forwarding.  Concretely: component `<Box size>` with body
`<div class="size" />` and call site `<Box size="24" />` expand to
`<div class="24" />`.  In general, for any attribute of the copied subtree
(every such attribute is rewritten through
`assignAttr (buildRepl declared callAttrs)` by `substNode`) whose value
textually equals a formal parameter name declared on the component root,
the resulting value is the call site's attribute value when the call site
declares that name, else the component's declared default. -/
theorem C3_attribute_forwarding :
    (expand 2 16
      [⟨"Box".toList, [⟨"size".toList, none⟩],
        [Node.elem "div".toList [⟨"class".toList, some "size".toList⟩] []]⟩]
      [Node.elem "Box".toList [⟨"size".toList, some "24".toList⟩] []]
      = .ok [Node.elem "div".toList [⟨"class".toList, some "24".toList⟩] []] false)
    ∧ ∀ (declared callAttrs : List Attr) (attr : Attr) (v : Str) (d : Attr),
      attr.value = some v →
      declared.find? (fun a => a.name == v) = some d →
      (assignAttr (buildRepl declared callAttrs) attr).value =
        (match callAttrs.find? (fun (a : Attr) => a.name == v) with
         | some a => a.value
         | none => d.value) := by
  constructor
  · decide
  · intro declared callAttrs attr v d hval hfind
    induction declared with
    | nil => simp [List.find?] at hfind
    | cons d0 rest ih =>
        have hbr : buildRepl (d0 :: rest) callAttrs =
            (match callAttrs.find? (fun a => a.name == d0.name) with
             | some a => a
             | none => d0) :: buildRepl rest callAttrs := rfl
        cases hbeq : (d0.name == v) with
        | true =>
            have hd : d = d0 := by
              rw [List.find?] at hfind
              rw [hbeq] at hfind
              simpa using hfind.symm
            rw [hd, hbr]
            rw [assignAttr_cons_hit _ _ attr v hval
              (by rw [buildRepl_head_name]; exact hbeq)]
            have hv : d0.name = v := eq_of_beq hbeq
            rw [← hv]
            cases hcf : callAttrs.find? (fun a => a.name == d0.name) <;> simp
        | false =>
            have hfind' : rest.find? (fun a => a.name == v) = some d := by
              rw [List.find?] at hfind
              rw [hbeq] at hfind
              exact hfind
            rw [hbr]
            rw [assignAttr_cons_skip _ _ attr v hval
              (by rw [buildRepl_head_name]; exact hbeq)]
            exact ih hfind'

/-- Witness for the general clause of C3 at the claim's own example. -/
theorem C3_attribute_forwarding_witness :
    (assignAttr (buildRepl [⟨"size".toList, none⟩] [⟨"size".toList, some "24".toList⟩])
      ⟨"class".toList, some "size".toList⟩).value =
    (match ([⟨"size".toList, some "24".toList⟩] : List Attr).find?
        (fun a => a.name == "size".toList) with
     | some a => a.value
     | none => (none : Option Str)) :=
  C3_attribute_forwarding.2 [⟨"size".toList, none⟩] [⟨"size".toList, some "24".toList⟩]
    ⟨"class".toList, some "size".toList⟩ "size".toList ⟨"size".toList, none⟩
    rfl (by decide)

/-! ## The streaming markdown visitor (markcomp/src/visitor.rs)

`SimpleVisitor` accumulates output in one of three buffers selected by a
state stack; the pull-based driver (`simple`, `paragraph`, `parse_link`,
…) walks the raw input.  The syntect syntax set / highlighter and
serde_yaml are external collaborators, passed in as `MdEnv`.  Byte slices
become `Str`; the driver's recursion is fuel-guarded. -/

/-- `html_encode`, one character. -/
def htmlEncodeChar (c : Char) : Str :=
  match c with
  | '&' => "&amp;".toList
  | '<' => "&lt;".toList
  | '>' => "&gt;".toList
  | '"' => "&quot;".toList
  | '\'' => "&apos;".toList
  | c => [c]

/-- `html_encode` (visitor.rs / pull.rs): entity-escape `&`, `<`, `>`,
`"`, `'`; all other characters pass through. -/
def htmlEncode (s : Str) : Str := (s.map htmlEncodeChar).flatten

/-- `u8::is_ascii_whitespace`. -/
def isAsciiWs (c : Char) : Bool :=
  c = ' ' || c = '\t' || c = '\n' || c = '\r' || c = '\x0C'

/-- `[u8]::trim_ascii`. -/
def trimAscii (s : Str) : Str :=
  ((s.dropWhile isAsciiWs).reverse.dropWhile isAsciiWs).reverse

/-- The visitor's buffer-selection states (`State` in visitor.rs). -/
inductive VState where
  | normal
  | link
  | footnote
deriving DecidableEq, Repr

/-- `SimpleVisitor`: the state stack (top at the head) and the three
output buffers.  The parsed frontmatter is not modelled (it never reaches
the output); a YAML parse failure aborts the run instead. -/
structure SV where
  state : List VState
  output : Str
  linkBuffer : Str
  footnotes : Str
deriving DecidableEq, Repr

namespace SV

/-- `SimpleVisitor::state`: top of the stack, `Normal` when empty. -/
def curState (v : SV) : VState := v.state.head?.getD .normal

/-- `SimpleVisitor::buffer`: append to the buffer the current state
selects. -/
def appendCur (v : SV) (s : Str) : SV :=
  match v.curState with
  | .normal => { v with output := v.output ++ s }
  | .link => { v with linkBuffer := v.linkBuffer ++ s }
  | .footnote => { v with footnotes := v.footnotes ++ s }

/-- `SimpleVisitor::text`: the text run is appended verbatim. -/
def text (v : SV) (t : Str) : SV := v.appendCur t

/-- `SimpleVisitor::inline_code`. -/
def inlineCode (v : SV) (c : Str) : SV :=
  v.appendCur ("<code>".toList ++ htmlEncode c ++ "</code>".toList)

/-- `SimpleVisitor::strong_enter`. -/
def strongEnter (v : SV) : SV := v.appendCur "<strong>".toList

/-- `SimpleVisitor::strong_exit`. -/
def strongExit (v : SV) : SV := v.appendCur "</strong>".toList

/-- `SimpleVisitor::heading_enter` (the level is already reduced mod 256
by the `as u8` cast in the driver). -/
def headingEnter (v : SV) (level : Nat) : SV :=
  v.appendCur (("<h" ++ toString level ++ ">").toList)

/-- `SimpleVisitor::heading_exit`. -/
def headingExit (v : SV) (level : Nat) : SV :=
  v.appendCur (("</h" ++ toString level ++ ">").toList)

/-- `SimpleVisitor::paragraph_enter`. -/
def paragraphEnter (v : SV) : SV := v.appendCur "<p>".toList

/-- `SimpleVisitor::paragraph_exit`. -/
def paragraphExit (v : SV) : SV := v.appendCur "</p>".toList

/-- `SimpleVisitor::link_enter`: push the link state; nothing is written
yet. -/
def linkEnter (v : SV) : SV := { v with state := .link :: v.state }

/-- `SimpleVisitor::link_exit(url)`: pop the link state, then write the
opening tag with the href, the buffered body, and the closing tag — into
the footnote buffer when the surrounding state is a footnote definition,
else into the main output.  The link buffer is drained. -/
def linkExit (v : SV) (url : Str) : SV :=
  let v' : SV := { v with state := v.state.tail }
  let piece : Str := "<Link href=\"".toList ++ trimAscii url ++ "\">".toList
    ++ v'.linkBuffer ++ "</Link>".toList
  match v'.curState with
  | .footnote => { v' with footnotes := v'.footnotes ++ piece, linkBuffer := [] }
  | _ => { v' with output := v'.output ++ piece, linkBuffer := [] }

/-- `SimpleVisitor::footnote_reference`. -/
def footnoteRef (v : SV) (ident : Str) : SV :=
  v.appendCur ("<FootnoteRef href=\"#fn".toList ++ ident ++ "\" id=\"ref".toList
    ++ ident ++ "\">".toList ++ ident ++ "</FootnoteRef>".toList)

/-- `SimpleVisitor::footnote_definition_enter`: push the footnote state,
then write the marker into the footnote buffer. -/
def footnoteDefEnter (v : SV) (ident : Str) : SV :=
  ({ v with state := .footnote :: v.state } : SV).appendCur
    ("<p><span id=\"fn".toList ++ ident ++ "\">".toList ++ ident ++ ".</span>".toList
      ++ "<FootnoteRet href=\"#ref".toList ++ ident ++ "\"/>".toList)

/-- `SimpleVisitor::footnote_definition_exit`. -/
def footnoteDefExit (v : SV) : SV :=
  let v' := v.appendCur "</p>".toList
  { v' with state := v'.state.tail }

/-- `SimpleVisitor::image`. -/
def image (v : SV) (alt url : Str) : SV :=
  v.appendCur ("<Image src=\"".toList ++ trimAscii url ++ "\" alt=\"".toList
    ++ trimAscii alt ++ "\" />".toList)

/-- `SimpleVisitor::inline_math`. -/
def inlineMath (v : SV) (m : Str) : SV :=
  v.appendCur ("<code>".toList ++ htmlEncode m ++ "</code>".toList)

/-- `SimpleVisitor::math`. -/
def mathBlock (v : SV) (m : Str) : SV :=
  v.appendCur ("<blockquote>".toList ++ htmlEncode m ++ "</blockquote>".toList)

/-- `SimpleVisitor::html`: serialize the parsed element into the current
buffer. -/
def html (v : SV) (el : Node) : SV := v.appendCur (writeNode el)

/-- `SimpleVisitor::output`: main output, then the footnote buffer (when
nonempty) wrapped once at the very end. -/
def finalOutput (v : SV) : Str :=
  if v.footnotes.isEmpty then v.output
  else v.output ++ "<Footnotes>".toList ++ v.footnotes ++ "</Footnotes>".toList

end SV

/-- The external collaborators of the visitor: serde_yaml, and syntect's
syntax lookup and highlighter. -/
structure MdEnv where
  yamlOk : Str → Bool
  findSyntax : Str → Bool
  highlight : Str → Str

/-- `SimpleVisitor::code`: highlighted `<div>` when the language is
recognized, verbatim-escaped `<blockquote>` otherwise. -/
def SV.codeBlock (env : MdEnv) (v : SV) (value : Str) (lang : Option Str) : SV :=
  match lang with
  | some l =>
      if env.findSyntax l then
        v.appendCur ("<div class=\"codeblock\">".toList
          ++ env.highlight value ++ "</div>".toList)
      else
        v.appendCur ("<blockquote>".toList ++ htmlEncode value ++ "</blockquote>".toList)
  | none =>
      v.appendCur ("<blockquote>".toList ++ htmlEncode value ++ "</blockquote>".toList)

/-- visitor.rs `advance_to`: scan for the hint, testing the predicate at
every occurrence; return the prefix and leave the input at the hint (or
empty when the scan exhausts the input).  Nothing is consumed by the
predicate. -/
def advanceToB (p : Str → Bool) (hint : Char) : Str → (Str × Str)
  | [] => ([], [])
  | c :: rest =>
      if c = hint && p (c :: rest) then ([], c :: rest)
      else
        let pr := advanceToB p hint rest
        (c :: pr.1, pr.2)

/-- visitor.rs `skip_newlines`. -/
def skipNewlines (s : Str) : Str := s.dropWhile (fun c => c = '\n' || c = '\r')

/-- The special characters that interrupt a plain text run in
`paragraph`. -/
def mdSpecials : List Char := ['!', '*', '_', '`', '[']

/-- The scan for the end of a plain text run (`paragraph`'s final branch,
starting from offset 1): distance until a special character or the
termination predicate fires. -/
def textStopAux (term : Str → Bool) : Str → Nat
  | [] => 0
  | c :: rest =>
      if mdSpecials.contains c || term (c :: rest) then 0
      else 1 + textStopAux term rest

/-- Does the input start with a newline byte? -/
def startsNl (i : Str) : Bool :=
  match i with
  | '\n' :: _ => true
  | '\r' :: _ => true
  | _ => false

mutual

/-- visitor.rs `paragraph`: the inline loop, dispatching on images,
strong, emphasis, footnote references, links, inline code, and plain text
runs, until the input is empty or the termination predicate fires. -/
def mdParagraph : Nat → (Str → Bool) → Str → SV → Option (Str × SV)
  | 0, _, _, _ => none
  | fuel+1, term, input, v =>
    match input with
    | [] => some ([], v)
    | _ =>
      if term input then some (input, v)
      else if "![".toList.isPrefixOf input then
        let s1 := input.drop 2
        let pr1 := advanceToB (fun _ => true) ']' s1
        let s3 := pr1.2.drop 2
        if s3.head? = some '<' then
          let pr2 := advanceToB (fun _ => true) '>' (s3.drop 1)
          let pr3 := advanceToB (fun _ => true) ')' pr2.2
          mdParagraph fuel term (pr3.2.drop 1) (v.image pr1.1 pr2.1)
        else
          let pr2 := advanceToB (fun _ => true) ')' s3
          mdParagraph fuel term (pr2.2.drop 1) (v.image pr1.1 pr2.1)
      else if input.head? = some '*' then
        match mdStrong fuel (input.drop 1) v with
        | some rv => mdParagraph fuel term rv.1 rv.2
        | none => none
      else if input.head? = some '_' then
        match mdEm fuel (input.drop 1) v with
        | some rv => mdParagraph fuel term rv.1 rv.2
        | none => none
      else if "[^".toList.isPrefixOf input then
        let s1 := input.drop 2
        let pr := advanceToB (fun _ => true) ']' s1
        mdParagraph fuel term (pr.2.drop 1) (v.footnoteRef pr.1)
      else if input.head? = some '[' then
        match mdLink fuel (input.drop 1) v with
        | some rv => mdParagraph fuel term rv.1 rv.2
        | none => none
      else if input.head? = some '`' then
        let pr := advanceToB (fun _ => true) '`' (input.drop 1)
        mdParagraph fuel term (pr.2.drop 1) (v.inlineCode pr.1)
      else
        let stop := 1 + textStopAux term (input.drop 1)
        mdParagraph fuel term (input.drop stop) (v.text (input.take stop))

/-- visitor.rs `parse_strong`: `strong_enter`, the body up to `*`, skip
it, `strong_exit`. -/
def mdStrong : Nat → Str → SV → Option (Str × SV)
  | 0, _, _ => none
  | fuel+1, input, v =>
    match mdParagraph fuel (fun i => "*".toList.isPrefixOf i) input v.strongEnter with
    | some rv => some (rv.1.drop 1, rv.2.strongExit)
    | none => none

/-- visitor.rs `parse_em` — which calls `strong_enter`/`strong_exit`, not
the emphasis pair. -/
def mdEm : Nat → Str → SV → Option (Str × SV)
  | 0, _, _ => none
  | fuel+1, input, v =>
    match mdParagraph fuel (fun i => "_".toList.isPrefixOf i) input v.strongEnter with
    | some rv => some (rv.1.drop 1, rv.2.strongExit)
    | none => none

/-- visitor.rs `parse_link`: `link_enter`, buffer the body up to `]`, skip
`](`, read the URL (optionally `<…>`-wrapped) up to `)`, then
`link_exit(url)` and skip the `)`. -/
def mdLink : Nat → Str → SV → Option (Str × SV)
  | 0, _, _ => none
  | fuel+1, input, v =>
    match mdParagraph fuel (fun i => "]".toList.isPrefixOf i) input v.linkEnter with
    | some rv =>
        let r2 := rv.1.drop 2
        if r2.head? = some '<' then
          let pr1 := advanceToB (fun _ => true) '>' (r2.drop 1)
          let pr2 := advanceToB (fun _ => true) ')' pr1.2
          some (pr2.2.drop 1, rv.2.linkExit pr1.1)
        else
          let pr := advanceToB (fun _ => true) ')' r2
          some (pr.2.drop 1, rv.2.linkExit pr.1)
    | none => none

end

/-- Outcome of a full visitor run. -/
inductive MdOut where
  | done (v : SV)
  | fmErr
  | fuelOut
deriving DecidableEq, Repr

/-- The paragraph-termination predicate of the plain-paragraph branch of
`simple`: a newline followed by a blank line or a heading. -/
def paraTerm (i : Str) : Bool :=
  if startsNl i then
    let j := i.drop 1
    j.head? = some '\n' || j.head? = some '#'
  else false

/-- visitor.rs `simple`: the block-level driver.  Branches, in source
order: footnote definitions, YAML frontmatter, fenced code, display math,
headings, then inline HTML (delegated to the wincomp element grammar) or
a plain paragraph.  After a successful HTML parse the driver continues at
the grammar's remainder (the `skip_newlines` call before the reassignment
of the input is dead).  A YAML failure aborts the run (`.fmErr`). -/
def mdSimple : Nat → MdEnv → Str → SV → MdOut
  | 0, _, _, _ => .fuelOut
  | fuel+1, env, input, v =>
    match input with
    | [] => .done v
    | _ =>
      if "[^".toList.isPrefixOf input then
        let s1 := input.drop 2
        let pr := advanceToB (fun _ => true) ']' s1
        let v1 := v.footnoteDefEnter pr.1
        let s3 := pr.2.drop 2
        match mdParagraph fuel startsNl s3 v1 with
        | some rv => mdSimple fuel env (skipNewlines rv.1) rv.2.footnoteDefExit
        | none => .fuelOut
      else if "---".toList.isPrefixOf input then
        let s1 := input.drop 3
        let pr := advanceToB (fun i => "---".toList.isPrefixOf i) '-' s1
        let s3 := pr.2.drop 3
        if env.yamlOk pr.1 then mdSimple fuel env (skipNewlines s3) v else .fmErr
      else if "```".toList.isPrefixOf input then
        let s1 := input.drop 3
        let lang := s1.takeWhile (fun c => !(c = ' ' || c = '\n' || c = '\r'))
        let s2 := skipNewlines (s1.drop lang.length)
        let pr := advanceToB (fun i => "```".toList.isPrefixOf i) '`' s2
        let s4 := pr.2.drop 3
        mdSimple fuel env (skipNewlines s4)
          (SV.codeBlock env v pr.1 (if lang.isEmpty then none else some lang))
      else if "$$".toList.isPrefixOf input then
        let s1 := input.drop 2
        let pr := advanceToB (fun i => "$$".toList.isPrefixOf i) '$' s1
        let s3 := pr.2.drop 2
        mdSimple fuel env (skipNewlines s3) (v.mathBlock pr.1)
      else if input.head? = some '#' then
        let s1 := input.drop 1
        let hashes := s1.takeWhile (fun c => c = '#')
        let depth := (1 + hashes.length) % 256
        let s2 := s1.drop hashes.length
        match mdParagraph fuel startsNl s2 (v.headingEnter depth) with
        | some rv => mdSimple fuel env (skipNewlines rv.1) (rv.2.headingExit depth)
        | none => .fuelOut
      else
        match (if input.head? = some '<' then
            match parseElement (2 * input.length + 4) input with
            | .ok er => some er
            | .error _ => none
          else none) with
        | some er => mdSimple fuel env er.2 (v.html er.1)
        | none =>
            match mdParagraph fuel paraTerm input v.paragraphEnter with
            | some rv => mdSimple fuel env (skipNewlines rv.1) rv.2.paragraphExit
            | none => .fuelOut

/-- `SimpleVisitor::new` + `simple`: run the visitor from the initial
state (`state = [Normal]`, empty buffers). -/
def runSimple (fuel : Nat) (env : MdEnv) (input : Str) : MdOut :=
  mdSimple fuel env input ⟨[.normal], [], [], []⟩

/-- A concrete environment for closed runs (none of its components is
exercised by the inputs used below). -/
def mdEnv0 : MdEnv := ⟨fun _ => false, fun _ => false, fun _ => []⟩

/-! ## The pulldown-cmark writer's text handling (markcomp/src/pull.rs)

The upstream pulldown-cmark tokenizer is an external collaborator; the
writer is a fold over its events.  Only the state consulted by the
`Event::Text` arm is modelled: the Normal/Footnote buffer switch and the
code-block accumulation modes. -/

/-- The writer's code-accumulation modes (`Code` in pull.rs). -/
inductive WCode where
  | named (lang : Str) (acc : Str)
  | unnamed
  | htmlBlock
  | yaml (acc : Str)
deriving DecidableEq, Repr

/-- The `Writer`'s state as consulted by its text handling. -/
structure WState where
  footnoteMode : Bool
  output : Str
  footnotes : Str
  code : Option WCode
deriving DecidableEq, Repr

/-- `Writer::buffer`: footnote buffer in footnote mode, else output. -/
def WState.appendCur (w : WState) (s : Str) : WState :=
  if w.footnoteMode then { w with footnotes := w.footnotes ++ s }
  else { w with output := w.output ++ s }

/-- The `Event::Text(t)` arm of `Writer::parse`: accumulate into a named
code block or YAML block, pass through verbatim inside an HTML block, and
otherwise HTML-entity-escape into the current buffer. -/
def writerText (w : WState) (t : Str) : WState :=
  match w.code with
  | some (.named lang acc) => { w with code := some (.named lang (acc ++ t)) }
  | some (.yaml acc) => { w with code := some (.yaml (acc ++ t)) }
  | some .htmlBlock => w.appendCur t
  | _ => w.appendCur (htmlEncode t)

/-! ## C6: which text runs are escaped -/

/-- C6 counterexample: the input `a < b` reaches the streaming visitor's
plain-text path, and the run is emitted verbatim — the `<` is *not*
escaped — so it is false that every text run emitted by the markdown
compiler is HTML-entity-escaped. -/
theorem C6_text_escaping_counterexample :
    runSimple 8 mdEnv0 "a < b".toList
      = .done ⟨[.normal], "<p>a < b</p>".toList, [], []⟩ ∧
    ("<p>a < b</p>".toList : Str) ≠ "<p>a &lt; b</p>".toList := by
  constructor <;> decide

/-- C6 amended: the pulldown-cmark writer escapes ordinary text runs —
outside named-code, YAML and HTML-block states, `Event::Text` appends the
HTML-entity-escaped run, with each of `&` `<` `>` `"` `'` becoming
`&amp;` `&lt;` `&gt;` `&quot;` `&apos;` and all other characters passing
through — while the streaming `SimpleVisitor::text` and the markup
serializer emit text runs verbatim with no escaping. -/
theorem C6_text_escaping_amended :
    (∀ (w : WState) (t : Str), w.code = none →
      writerText w t = w.appendCur (htmlEncode t)) ∧
    (htmlEncode "&<>\"'".toList = "&amp;&lt;&gt;&quot;&apos;".toList) ∧
    (∀ a b : Str, htmlEncode (a ++ b) = htmlEncode a ++ htmlEncode b) ∧
    (∀ c : Char, c ∉ (['&', '<', '>', '"', '\''] : List Char) → htmlEncode [c] = [c]) ∧
    (∀ (v : SV) (t : Str), SV.text v t = v.appendCur t) ∧
    (∀ t : Str, writeNode (.text t) = t) := by
  refine ⟨?_, by decide, ?_, ?_, fun _ _ => rfl, fun _ => rfl⟩
  · intro w t hcode
    rw [writerText, hcode]
  · intro a b
    simp [htmlEncode]
  · intro c hc
    simp only [List.mem_cons, not_or] at hc
    obtain ⟨h1, h2, h3, h4, h5, -⟩ := hc
    rw [htmlEncode]
    rw [List.map_cons, List.map_nil, List.flatten]
    rw [htmlEncodeChar.eq_def]
    split
    · simp_all
    · simp_all
    · simp_all
    · simp_all
    · simp_all
    · simp [List.flatten]

/-- Witness for C6 amended: a writer in the default state escapes `a<b`. -/
theorem C6_text_escaping_amended_witness :
    writerText ⟨false, [], [], none⟩ "a<b".toList
      = WState.appendCur ⟨false, [], [], none⟩ (htmlEncode "a<b".toList) :=
  C6_text_escaping_amended.1 ⟨false, [], [], none⟩ "a<b".toList rfl

/-! ## C7: link bodies are buffered and emitted after the href -/

/-- C7 counterexample: on `[text](http://x)` the streaming visitor does
not emit `<a href="http://x">text</a>` — no `<a ` tag appears anywhere in
its output (it writes a `<Link …>` element instead). -/
theorem C7_link_counterexample :
    runSimple 16 mdEnv0 "[text](http://x)".toList
      = .done ⟨[.normal], "<p><Link href=\"http://x\">text</Link></p>".toList, [], []⟩ ∧
    ¬ List.IsInfix "<a ".toList "<p><Link href=\"http://x\">text</Link></p>".toList ∧
    ("<p><Link href=\"http://x\">text</Link></p>".toList : Str)
      ≠ "<a href=\"http://x\">text</a>".toList := by
  refine ⟨by decide, by decide, by decide⟩

/-- C7 amended: on `[text](http://x)` the streaming visitor emits
`<p><Link href="http://x">text</Link></p>`.  The body is buffered while
scanned — `text` under the link state goes to the link buffer, leaving
the main output untouched — and `link_exit(url)` then writes the href
first and the buffered body after it (draining the buffer), so the body
appears after the href in the output even though it is read first. -/
theorem C7_link_buffering_amended :
    (runSimple 16 mdEnv0 "[text](http://x)".toList
      = .done ⟨[.normal], "<p><Link href=\"http://x\">text</Link></p>".toList, [], []⟩) ∧
    (∀ (v : SV) (t : Str), v.curState = .link →
      (SV.text v t).output = v.output ∧
      (SV.text v t).linkBuffer = v.linkBuffer ++ t) ∧
    (∀ (v : SV) (url : Str), (v.state.tail.head?.getD .normal ≠ .footnote) →
      (SV.linkExit v url).output
        = v.output ++ "<Link href=\"".toList ++ trimAscii url ++ "\">".toList
          ++ v.linkBuffer ++ "</Link>".toList ∧
      (SV.linkExit v url).linkBuffer = []) := by
  refine ⟨by decide, ?_, ?_⟩
  · intro v t hst
    constructor <;> simp [SV.text, SV.appendCur, hst]
  · intro v url hst
    rw [SV.linkExit]
    simp only
    have hcur : SV.curState { v with state := v.state.tail } = v.state.tail.head?.getD .normal := rfl
    cases hv : v.state.tail.head?.getD .normal with
    | footnote => exact absurd hv hst
    | normal =>
        rw [show SV.curState { v with state := v.state.tail } = .normal from hv]
        constructor <;> simp [List.append_assoc]
    | link =>
        rw [show SV.curState { v with state := v.state.tail } = .link from hv]
        constructor <;> simp [List.append_assoc]

/-- Witness for C7 amended: concrete buffering and exit. -/
theorem C7_link_buffering_amended_witness :
    ((SV.text ⟨[.link, .normal], "o".toList, "b".toList, []⟩ "t".toList).output = "o".toList ∧
      (SV.text ⟨[.link, .normal], "o".toList, "b".toList, []⟩ "t".toList).linkBuffer
        = "b".toList ++ "t".toList) ∧
    ((SV.linkExit ⟨[.link, .normal], "o".toList, "tx".toList, []⟩ "u".toList).output
        = "o".toList ++ "<Link href=\"".toList ++ trimAscii "u".toList ++ "\">".toList
          ++ "tx".toList ++ "</Link>".toList ∧
      (SV.linkExit ⟨[.link, .normal], "o".toList, "tx".toList, []⟩ "u".toList).linkBuffer = []) :=
  ⟨C7_link_buffering_amended.2.1 ⟨[.link, .normal], "o".toList, "b".toList, []⟩ "t".toList rfl,
   C7_link_buffering_amended.2.2 ⟨[.link, .normal], "o".toList, "tx".toList, []⟩ "u".toList
     (by decide)⟩

/-! ## Printer–parser round trip: invariants of parsed trees

`wfNode`/`wfList` state exactly the shape invariants a successfully
parsed, comment-free, raw-text/void-free tree enjoys (established by the
soundness lemmas below) and under which serialization re-parses to the
same tree. -/

/-- A valid tag/attribute name as `identifier` produces it: nonempty,
alphabetic first character, identifier characters throughout. -/
def validName (name : Str) : Bool :=
  (match name with
   | c :: _ => rsAlpha c
   | [] => false) && name.all isIdentChar

/-- A raw-text or void tag name. -/
def specialName (name : Str) : Bool :=
  rawNames.contains name || voidNames.contains name

/-- The quoting invariant of the `parse_string` scan: every `"` is
immediately preceded by a backslash, tracking the previous character. -/
def escOk : Char → Str → Bool
  | _, [] => true
  | last, c :: rest => (!(c = '"') || last = '\\') && escOk c rest

/-- The last character of a run, with a default for the empty run. -/
def lastCharD (dflt : Char) (s : Str) : Char := s.getLast?.getD dflt

/-- An attribute value that re-parses exactly: quotes all escaped, and no
trailing backslash to swallow the closing quote. -/
def wfValue (v : Str) : Bool := escOk '"' v && !(lastCharD '"' v = '\\')

/-- A well-formed attribute. -/
def wfAttr (a : Attr) : Bool :=
  validName a.name &&
  (match a.value with
   | none => true
   | some v => wfValue v)

/-- Is this node a text run? -/
def isText : Node → Bool
  | .text _ => true
  | _ => false

mutual

/-- Parse-shape invariant of one node, restricted to the comment-free,
special-tag-free fragment. -/
def wfNode : Node → Bool
  | .text t => !t.isEmpty && t.all (fun c => !(c = '<'))
  | .comment _ => false
  | .elem name attrs children =>
      validName name && !specialName name && attrs.all wfAttr && wfList children

/-- Parse-shape invariant of a sibling list: each node well-formed, and no
two adjacent text runs (the parser always takes the longest run). -/
def wfList : List Node → Bool
  | [] => true
  | n :: rest =>
      wfNode n && wfList rest &&
      (match n, rest with
       | .text _, .text _ :: _ => false
       | _, _ => true)

end

/-- Is the last node of the list a text run? -/
def lastIsText : List Node → Bool
  | [] => false
  | [n] => isText n
  | _ :: rest => lastIsText rest

mutual

/-- Parser fuel budget of one node. -/
def pSizeN : Node → Nat
  | .elem _ _ ch => 2 + pSizeL ch
  | _ => 1

/-- Parser fuel budget of a node list (at least 3, so that the repeat can
decide to stop: one tick for `nodes`, one for `node`, one for the element
grammar to reject the closing tag). -/
def pSizeL : List Node → Nat
  | [] => 3
  | n :: rest => pSizeN n + pSizeL rest

end

theorem pSizeN_pos (n : Node) : 1 ≤ pSizeN n := by
  cases n with
  | elem _ _ ch => simp only [pSizeN]; omega
  | text _ => simp [pSizeN]
  | comment _ => simp [pSizeN]

theorem pSizeL_ge (l : List Node) : 3 ≤ pSizeL l := by
  induction l with
  | nil => simp [pSizeL]
  | cons n rest ih => have := pSizeN_pos n; simp only [pSizeL]; omega

/-! ### Exactness of the primitive sub-grammars on serialized input -/

theorem ms0_cons {c : Char} (s : Str) (hc : isMultispace c = false) :
    ms0 (c :: s) = c :: s := by
  simp [ms0, List.dropWhile_cons, hc]

theorem takeWhile_append_all {p : Char → Bool} {l1 : Str} (l2 : Str)
    (h : ∀ c ∈ l1, p c = true) :
    (l1 ++ l2).takeWhile p = l1 ++ l2.takeWhile p := by
  induction l1 with
  | nil => simp
  | cons c t ih =>
      have hc := h c (by simp)
      have ih' := ih (fun x hx => h x (by simp [hx]))
      simp [List.takeWhile_cons, hc, ih']

/-- Characters excluded from identifiers also stop `takeWhile`. -/
def idStop (s : Str) : Bool :=
  match s with
  | [] => true
  | c :: _ => !isIdentChar c

theorem takeWhile_stop {p : Char → Bool} {s : Str}
    (h : match s with | [] => True | c :: _ => p c = false) :
    s.takeWhile p = [] := by
  cases s with
  | nil => rfl
  | cons c t => simp only [List.takeWhile_cons]; simp_all

theorem identifier_exact (name rest : Str) (hname : validName name = true)
    (hstop : idStop rest = true) :
    identifier (name ++ rest) = .ok (name, rest) := by
  simp only [validName, Bool.and_eq_true] at hname
  obtain ⟨hhead, hall⟩ := hname
  cases name with
  | nil => simp at hhead
  | cons c t =>
      simp only at hhead
      have hallb : ∀ x ∈ c :: t, isIdentChar x = true := by
        intro x hx
        exact (List.all_eq_true.mp hall) x hx
      have htw : ((c :: t) ++ rest).takeWhile isIdentChar = (c :: t) ++ rest.takeWhile isIdentChar :=
        takeWhile_append_all rest hallb
      have hrest : rest.takeWhile isIdentChar = [] := by
        apply takeWhile_stop
        cases rest with
        | nil => trivial
        | cons r rs => simpa [idStop] using hstop
      show (if rsAlpha c then takeWhile1 isIdentChar (c :: (t ++ rest)) else .error .backtrack)
        = .ok (c :: t, rest)
      rw [if_pos hhead]
      rw [takeWhile1]
      have htw' : ((c :: t) ++ rest).takeWhile isIdentChar = c :: t := by
        rw [htw, hrest, List.append_nil]
      simp only [List.cons_append] at htw'
      rw [htw']
      have hd : ((c :: t) ++ rest).drop (c :: t).length = rest := List.drop_left _ _
      simp only [List.cons_append] at hd
      simp [hd]

theorem lastCharD_of_ne {t : Str} (ht : t ≠ []) (d1 d2 : Char) :
    lastCharD d1 t = lastCharD d2 t := by
  cases hgl : t.getLast? with
  | none => exact absurd (List.getLast?_eq_none_iff.mp hgl) ht
  | some x => simp [lastCharD, hgl]

theorem scanString_exact (v : Str) (rest : Str) :
    ∀ last : Char, escOk last v = true → ¬(lastCharD last v = '\\') →
    scanString last (v ++ '"' :: rest) = some (v, rest) := by
  induction v with
  | nil =>
      intro last _ hlast
      simp only [lastCharD, List.getLast?, Option.getD] at hlast
      simp [scanString, hlast]
  | cons c t ih =>
      intro last hesc hlast
      simp only [escOk, Bool.and_eq_true] at hesc
      have hlast' : ¬(lastCharD c t = '\\') := by
        cases t with
        | nil =>
            simpa [lastCharD, List.getLast?] using hlast
        | cons d u =>
            have heq : lastCharD last (c :: d :: u) = lastCharD c (d :: u) := by
              have h1 : lastCharD last (c :: d :: u) = lastCharD last (d :: u) := by
                simp [lastCharD, List.getLast?_cons_cons]
              rw [h1]
              exact lastCharD_of_ne (by simp) last c
            rwa [heq] at hlast
      rw [List.cons_append, scanString]
      rcases hc : decide (c = '"') with _ | _
      · have hcne : ¬(c = '"') := of_decide_eq_false hc
        rw [if_neg (by simp [hcne])]
        rw [ih c hesc.2 hlast']
        rfl
      · have hceq : c = '"' := of_decide_eq_true hc
        have hbs : last = '\\' := by
          rcases Bool.or_eq_true _ _ |>.mp hesc.1 with h' | h'
          · exact absurd hceq (by simpa using h')
          · simpa using h'
        rw [if_neg (by simp [hbs])]
        rw [ih c hesc.2 hlast']
        rfl

theorem parseString_exact (v rest : Str) (hv : wfValue v = true) :
    parseString ('"' :: v ++ '"' :: rest) = .ok (v, rest) := by
  simp only [wfValue, Bool.and_eq_true] at hv
  have hs := scanString_exact v rest '"' hv.1 (by simpa using hv.2)
  show (match scanString '"' (v ++ '"' :: rest) with
        | some (a, b) => (Except.ok (a, b) : PRes Str)
        | none => Except.error PErr.cut) = Except.ok (v, rest)
  rw [hs]

theorem expectLit_exact (pat rest : Str) : expectLit pat (pat ++ rest) = .ok ((), rest) := by
  rw [expectLit]
  rw [if_pos (List.isPrefixOf_iff_prefix.mpr (List.prefix_append pat rest))]
  rw [List.drop_left]

theorem validName_head_alpha {name : Str} (h : validName name = true) :
    ∃ c t, name = c :: t ∧ rsAlpha c = true := by
  simp only [validName, Bool.and_eq_true] at h
  cases name with
  | nil => simp at h
  | cons c t => exact ⟨c, t, rfl, h.1⟩

theorem alpha_not_ms {c : Char} (h : rsAlpha c = true) : isMultispace c = false := by
  by_contra hm
  rw [Bool.not_eq_false] at hm
  simp only [isMultispace, Bool.or_eq_true, decide_eq_true_eq] at hm
  rcases hm with ((h1 | h1) | h1) | h1 <;> subst h1 <;> exact absurd h (by decide)

theorem closingTag_exact (name rest : Str) (hname : validName name = true) :
    closingTag name ('<' :: '/' :: (name ++ '>' :: rest)) = .ok ((), rest) := by
  obtain ⟨c, t, hn, hc⟩ := validName_head_alpha hname
  have h1 : expectLit ['<', '/'] ('<' :: '/' :: (name ++ '>' :: rest))
      = .ok ((), name ++ '>' :: rest) :=
    expectLit_exact ['<', '/'] (name ++ '>' :: rest)
  have hms1 : ms0 (name ++ '>' :: rest) = name ++ '>' :: rest := by
    rw [hn, List.cons_append]
    exact ms0_cons _ (alpha_not_ms hc)
  have h2 : expectLit name (name ++ '>' :: rest) = .ok ((), '>' :: rest) :=
    expectLit_exact name ('>' :: rest)
  have hms2 : ms0 ('>' :: rest) = '>' :: rest := ms0_cons _ (by rfl)
  have h3 : expectLit ['>'] ('>' :: rest) = .ok ((), rest) :=
    expectLit_exact ['>'] rest
  simp only [closingTag, h1, hms1, h2, hms2, h3]

theorem ms0_space (x : Str) : ms0 (' ' :: x) = ms0 x := by
  simp [ms0, List.dropWhile_cons, isMultispace]

theorem identifier_not_alpha (c : Char) (cs : Str) (hc : rsAlpha c = false) :
    identifier (c :: cs) = .error .backtrack := by
  show (if rsAlpha c then takeWhile1 isIdentChar (c :: cs) else .error .backtrack)
    = .error .backtrack
  rw [if_neg (by simp [hc])]

theorem parseAttr_exact_none (name tail : Str) (hname : validName name = true)
    (hstop : idStop tail = true)
    (hms : (ms0 tail).head? ≠ some '=') :
    parseAttr (name ++ tail) = .ok (⟨name, none⟩, tail) := by
  rw [parseAttr, identifier_exact name tail hname hstop]
  show (match ms0 tail with
        | '=' :: s3 =>
          (match parseString (ms0 s3) with
           | Except.ok (v, s4) => Except.ok (⟨name, some v⟩, s4)
           | Except.error PErr.cut => Except.error PErr.cut
           | Except.error PErr.backtrack => Except.ok ((⟨name, none⟩ : Attr), tail))
        | _ => Except.ok ((⟨name, none⟩ : Attr), tail))
    = Except.ok ((⟨name, none⟩ : Attr), tail)
  split
  case h_1 s3 heq => exact absurd (by rw [heq]; rfl) hms
  case h_2 => rfl

theorem parseAttr_exact_some (name v tail : Str) (hname : validName name = true)
    (hv : wfValue v = true) :
    parseAttr (name ++ '=' :: '"' :: (v ++ '"' :: tail)) = .ok (⟨name, some v⟩, tail) := by
  have hstop : idStop ('=' :: '"' :: (v ++ '"' :: tail)) = true := rfl
  rw [parseAttr, identifier_exact name _ hname hstop]
  have hms : ms0 ('=' :: '"' :: (v ++ '"' :: tail)) = '=' :: '"' :: (v ++ '"' :: tail) :=
    ms0_cons _ (by rfl)
  show (match ms0 ('=' :: '"' :: (v ++ '"' :: tail)) with
        | '=' :: s3 =>
          (match parseString (ms0 s3) with
           | Except.ok (w, s4) => Except.ok ((⟨name, some w⟩ : Attr), s4)
           | Except.error PErr.cut => Except.error PErr.cut
           | Except.error PErr.backtrack =>
              Except.ok ((⟨name, none⟩ : Attr), '=' :: '"' :: (v ++ '"' :: tail)))
        | _ => Except.ok ((⟨name, none⟩ : Attr), '=' :: '"' :: (v ++ '"' :: tail)))
    = Except.ok ((⟨name, some v⟩ : Attr), tail)
  split
  case h_2 hne =>
      exact absurd (hms.trans rfl) (by intro hcontra; exact hne _ hcontra)
  case h_1 s3 heq =>
      rw [hms] at heq
      have hs3 : s3 = '"' :: (v ++ '"' :: tail) := by
        injection heq with h1 h2
        exact h2.symm
      subst hs3
      have hms2 : ms0 ('"' :: (v ++ '"' :: tail)) = '"' :: (v ++ '"' :: tail) :=
        ms0_cons _ (by rfl)
      rw [hms2]
      rw [show ('"' :: (v ++ '"' :: tail)) = ('"' :: v ++ '"' :: tail) from rfl]
      rw [parseString_exact v tail hv]

theorem alpha_ne_eq {c : Char} (hc : rsAlpha c = true) : ¬ c = '=' := by
  intro h; subst h; exact absurd hc (by decide)

theorem alpha_ne_bang {c : Char} (hc : rsAlpha c = true) : ¬ ('!' = c) := by
  intro h; rw [← h] at hc; exact absurd hc (by decide)

/-- The input following a serialized attribute list, when the list is
followed by `/` or `>`: the identifier scan stops there, and no stray `=`
follows (so a value-less attribute stays value-less). -/
theorem attrsTail_stop (t : List Attr) (rest : Str)
    (hwf : t.all wfAttr = true)
    (hrest : rest.head? = some '/' ∨ rest.head? = some '>') :
    idStop ((t.map writeAttr).flatten ++ rest) = true ∧
    (ms0 ((t.map writeAttr).flatten ++ rest)).head? ≠ some '=' := by
  cases t with
  | nil =>
      simp only [List.map_nil, List.flatten_nil, List.nil_append]
      obtain ⟨c, r, rfl, hc⟩ : ∃ c r, rest = c :: r ∧ (c = '/' ∨ c = '>') := by
        cases rest with
        | nil => rcases hrest with h | h <;> simp at h
        | cons c r =>
            refine ⟨c, r, rfl, ?_⟩
            rcases hrest with h | h
            · exact Or.inl (by simpa using h)
            · exact Or.inr (by simpa using h)
      have hms : ms0 (c :: r) = c :: r := ms0_cons _ (by rcases hc with rfl | rfl <;> rfl)
      constructor
      · rcases hc with rfl | rfl <;> rfl
      · rw [hms]; rcases hc with rfl | rfl <;> simp
  | cons a2 t2 =>
      have hwf2 : wfAttr a2 = true := by
        simp only [List.all_cons, Bool.and_eq_true] at hwf
        exact hwf.1
      have hvn : validName a2.name = true := by
        simp only [wfAttr, Bool.and_eq_true] at hwf2
        exact hwf2.1
      obtain ⟨c2, t2', hn2, hc2⟩ := validName_head_alpha hvn
      have hshape : ((a2 :: t2).map writeAttr).flatten ++ rest
          = ' ' :: (a2.name ++ ((match a2.value with
              | none => []
              | some v => '=' :: '"' :: v ++ ['"']) ++ ((t2.map writeAttr).flatten ++ rest))) := by
        cases a2 with
        | mk n val =>
            cases val <;> simp [writeAttr, List.append_assoc]
      rw [hshape]
      constructor
      · rfl
      · rw [ms0_space]
        rw [hn2, List.cons_append]
        rw [ms0_cons _ (alpha_not_ms hc2)]
        simp only [List.head?_cons, ne_eq, Option.some.injEq]
        exact fun h => alpha_ne_eq hc2 h

theorem takeUntilLt_exact (t rest : Str) (hne : t ≠ [])
    (hlt : t.all (fun c => !(c = '<')) = true) :
    takeUntilLt (t ++ '<' :: rest) = .ok (t, '<' :: rest) := by
  have hall : ∀ c ∈ t, (fun c => c ≠ '<' : Char → Bool) c = true := by
    intro c hc
    have := List.all_eq_true.mp hlt c hc
    simpa using this
  have htw : (t ++ '<' :: rest).takeWhile (fun c => c ≠ '<') = t := by
    rw [takeWhile_append_all _ hall]
    rw [takeWhile_stop (by simp)]
    rw [List.append_nil]
  simp only [takeUntilLt, htw]
  rw [if_neg (by simp)]
  rw [if_neg (by simpa using hne)]
  rw [List.drop_left]

theorem parseAttrs_exact : ∀ (attrs : List Attr) (rest : Str),
    attrs.all wfAttr = true →
    (rest.head? = some '/' ∨ rest.head? = some '>') →
    parseAttrs ((attrs.map writeAttr).flatten ++ rest) = .ok (attrs, rest)
  | [], rest, hwf, hrest => by
      obtain ⟨c, r, rfl, hc⟩ : ∃ c r, rest = c :: r ∧ (c = '/' ∨ c = '>') := by
        cases rest with
        | nil => rcases hrest with h | h <;> simp at h
        | cons c r =>
            refine ⟨c, r, rfl, ?_⟩
            rcases hrest with h | h
            · exact Or.inl (by simpa using h)
            · exact Or.inr (by simpa using h)
      rw [parseAttrs_eq]
      simp only [List.map_nil, List.flatten_nil, List.nil_append]
      have hms : ms0 (c :: r) = c :: r := ms0_cons _ (by rcases hc with rfl | rfl <;> rfl)
      have hid : parseAttr (c :: r) = .error .backtrack := by
        rw [parseAttr, identifier_not_alpha c r (by rcases hc with rfl | rfl <;> rfl)]
      rw [hms, hid]
  | a :: t, rest, hwf, hrest => by
      have hwfa : wfAttr a = true := by
        simp only [List.all_cons, Bool.and_eq_true] at hwf
        exact hwf.1
      have hwft : t.all wfAttr = true := by
        simp only [List.all_cons, Bool.and_eq_true] at hwf
        exact hwf.2
      have ⟨hstop, hms⟩ := attrsTail_stop t rest hwft hrest
      cases a with
      | mk n val =>
          have hvn : validName n = true := by
            simp only [wfAttr, Bool.and_eq_true] at hwfa
            exact hwfa.1
          cases val with
          | none =>
              have hshape : (((⟨n, none⟩ : Attr) :: t).map writeAttr).flatten ++ rest
                  = ' ' :: (n ++ ((t.map writeAttr).flatten ++ rest)) := by
                simp [writeAttr, List.append_assoc]
              rw [hshape, parseAttrs_eq]
              rw [ms0_space]
              obtain ⟨cn, tn, hnn, hcn⟩ := validName_head_alpha hvn
              rw [hnn, List.cons_append, ms0_cons _ (alpha_not_ms hcn), ← List.cons_append,
                ← hnn]
              rw [parseAttr_exact_none n _ hvn hstop hms]
              split
              case h_1 a r heq =>
                  obtain ⟨rfl, rfl⟩ : (⟨n, none⟩ : Attr) = a
                      ∧ (t.map writeAttr).flatten ++ rest = r := by
                    have h1 := heq
                    rw [Except.ok.injEq, Prod.mk.injEq] at h1
                    exact h1
                  rw [dif_pos (by simp only [List.length_cons, List.length_append,
                    List.length_flatten, List.map_map]; omega)]
                  rw [parseAttrs_exact t rest hwft hrest]
              case h_2 heq => exact absurd heq (by simp)
              case h_3 heq => exact absurd heq (by simp)
          | some v =>
              have hwfv : wfValue v = true := by
                simp only [wfAttr, Bool.and_eq_true] at hwfa
                simpa using hwfa.2
              have hshape : (((⟨n, some v⟩ : Attr) :: t).map writeAttr).flatten ++ rest
                  = ' ' :: (n ++ '=' :: '"' :: (v ++ '"' :: ((t.map writeAttr).flatten ++ rest))) := by
                simp [writeAttr, List.append_assoc]
              rw [hshape, parseAttrs_eq]
              rw [ms0_space]
              obtain ⟨cn, tn, hnn, hcn⟩ := validName_head_alpha hvn
              rw [hnn, List.cons_append, ms0_cons _ (alpha_not_ms hcn), ← List.cons_append,
                ← hnn]
              rw [parseAttr_exact_some n v _ hvn hwfv]
              split
              case h_1 a r heq =>
                  obtain ⟨rfl, rfl⟩ : (⟨n, some v⟩ : Attr) = a
                      ∧ (t.map writeAttr).flatten ++ rest = r := by
                    have h1 := heq
                    rw [Except.ok.injEq, Prod.mk.injEq] at h1
                    exact h1
                  rw [dif_pos (by simp only [List.length_cons, List.length_append,
                    List.length_flatten, List.map_map]; omega)]
                  rw [parseAttrs_exact t rest hwft hrest]
              case h_2 heq => exact absurd heq (by simp)
              case h_3 heq => exact absurd heq (by simp)

/-- Unfolding of the element grammar at positive fuel on a `<`-headed
input. -/
theorem parseElement_cons (g : Nat) (s0 : Str) :
    parseElement (g+1) ('<' :: s0) =
      (match identifier s0 with
       | .error e => .error e
       | .ok (name, s1) =>
         match parseAttrs s1 with
         | .error e => .error e
         | .ok (attrs, s2) =>
           match ms0 s2 with
           | '/' :: '>' :: s3 => .ok (.elem name attrs [], s3)
           | '>' :: s3 =>
               if name ∈ rawNames then
                 match advanceTo (closingTag name) '<' s3 with
                 | .ok (t, _, r) => .ok (.elem name attrs [.text t], r)
                 | .error _ => .error .cut
               else if name ∈ voidNames then
                 .ok (.elem name attrs [], s3)
               else
                 match parseNodes g s3 with
                 | .error e => .error e
                 | .ok (children, s4) =>
                     match closingTag name (ms0 s4) with
                     | .ok (_, s5) => .ok (.elem name attrs children, s5)
                     | .error _ => .error .cut
           | _ => .error .backtrack) := rfl

/-- Unfolding of the node grammar at positive fuel on a `<`-headed
input. -/
theorem parseNode_lt (f : Nat) (s0 : Str) :
    parseNode (f+1) ('<' :: s0) =
      (match expectLit "<!--".toList ('<' :: s0) with
       | .ok (_, s1) =>
           match advanceTo (expectLit "-->".toList) '-' s1 with
           | .ok (t, _, r) => .ok (.comment t, r)
           | .error _ => .error .cut
       | .error _ => parseElement f ('<' :: s0)) := rfl

/-- The comment opener never matches when an alphabetic tag-name character
follows the `<`. -/
theorem comment_open_fails {c : Char} (s0 : Str) (hc : rsAlpha c = true) :
    expectLit "<!--".toList ('<' :: c :: s0) = .error .backtrack := by
  rw [expectLit]
  rw [if_neg ?hpre]
  case hpre =>
    intro hpre
    simp only [List.isPrefixOf, Bool.and_eq_true, beq_iff_eq] at hpre
    exact alpha_ne_bang hc hpre.2.1

/-- At the end of the input or in front of a closing tag, `node` fails
with a recoverable backtrack (ending the enclosing repetition), given at
least two ticks of fuel. -/
theorem parseNode_stop (f : Nat) (hf : 2 ≤ f) (rest : Str)
    (hrest : rest = [] ∨ ∃ r', rest = '<' :: '/' :: r') :
    parseNode f rest = .error .backtrack := by
  obtain ⟨f', rfl⟩ : ∃ k, f = k + 1 := ⟨f - 1, by omega⟩
  rcases hrest with rfl | ⟨r', rfl⟩
  · rw [parseNode]
  · rw [parseNode_lt]
    have hcomment : expectLit "<!--".toList ('<' :: '/' :: r') = .error .backtrack := by
      rw [expectLit, if_neg ?hpre]
      case hpre =>
        intro hpre
        simp only [List.isPrefixOf, Bool.and_eq_true, beq_iff_eq] at hpre
        exact absurd hpre.2.1 (by decide)
    rw [hcomment]
    obtain ⟨g, rfl⟩ : ∃ k, f' = k + 1 := ⟨f' - 1, by omega⟩
    rw [parseElement_cons]
    rw [identifier_not_alpha '/' r' (by decide)]

theorem writeNode_ne_nil {n : Node} (hwf : wfNode n = true) : writeNode n ≠ [] := by
  cases n with
  | text t =>
      simp only [wfNode, Bool.and_eq_true] at hwf
      simpa [writeNode] using hwf.1
  | comment s => simp [wfNode] at hwf
  | elem name attrs children => simp [writeNode]

theorem writeNode_head_lt {n : Node} (hwf : wfNode n = true) (hnt : isText n = false) :
    ∃ tail, writeNode n = '<' :: tail := by
  cases n with
  | text t => simp [isText] at hnt
  | comment s => simp [wfNode] at hwf
  | elem name attrs children => exact ⟨_, rfl⟩

theorem specialName_not_mem {name : Str} (h : specialName name = false) :
    ¬ name ∈ rawNames ∧ ¬ name ∈ voidNames := by
  simp only [specialName, Bool.or_eq_false_iff] at h
  constructor
  · intro hm
    have helem := List.elem_eq_true_of_mem hm
    rw [show rawNames.contains name = rawNames.elem name from rfl] at h
    rw [helem] at h
    exact absurd h.1 (by simp)
  · intro hm
    have helem := List.elem_eq_true_of_mem hm
    rw [show voidNames.contains name = voidNames.elem name from rfl] at h
    rw [helem] at h
    exact absurd h.2 (by simp)

mutual

/-- Round trip, one node: the serialization of a well-formed node followed
by any continuation re-parses to exactly that node, leaving the
continuation (for a text run the continuation must open with `<`, as at
every position the serializer puts a text run). -/
theorem parseNode_round : ∀ (n : Node) (rest : Str) (fuel : Nat),
    wfNode n = true → pSizeN n ≤ fuel →
    (isText n = true → rest.head? = some '<') →
    parseNode fuel (writeNode n ++ rest) = .ok (n, rest)
  | .text t, rest, fuel, hwf, hfuel, htext => by
      obtain ⟨f, rfl⟩ : ∃ k, fuel = k + 1 :=
        ⟨fuel - 1, by simp only [pSizeN] at hfuel; omega⟩
      simp only [wfNode, Bool.and_eq_true] at hwf
      obtain ⟨c, t', rfl⟩ : ∃ c t', t = c :: t' := by
        cases t with
        | nil => simp at hwf
        | cons c t' => exact ⟨c, t', rfl⟩
      obtain ⟨r', rfl⟩ : ∃ r', rest = '<' :: r' := by
        have h := htext rfl
        cases rest with
        | nil => simp at h
        | cons a b =>
            simp only [List.head?_cons, Option.some.injEq] at h
            exact ⟨b, by rw [h]⟩
      have hc : ¬ (c = '<') := by
        have := List.all_eq_true.mp hwf.2 c (by simp)
        simpa using this
      have ht := takeUntilLt_exact (c :: t') r' (by simp) hwf.2
      show parseNode (f+1) ((c :: t') ++ '<' :: r') = .ok (.text (c :: t'), '<' :: r')
      rw [List.cons_append, parseNode]
      rw [← List.cons_append]
      simp only [if_neg hc, ht]
  | .comment s, rest, fuel, hwf, _, _ => by simp [wfNode] at hwf
  | .elem name attrs children, rest, fuel, hwf, hfuel, _ => by
      simp only [wfNode, Bool.and_eq_true] at hwf
      obtain ⟨⟨⟨hvn, hnspec⟩, hwfattrs⟩, hwfch⟩ := hwf
      obtain ⟨c, t', hn, hc⟩ := validName_head_alpha hvn
      have hfuel' : 2 + pSizeL children ≤ fuel := by simpa [pSizeN] using hfuel
      have hge := pSizeL_ge children
      obtain ⟨g, rfl⟩ : ∃ k, fuel = k + 2 := ⟨fuel - 2, by omega⟩
      have hg : pSizeL children ≤ g := by omega
      have hnotmem := specialName_not_mem (by simpa using hnspec)
      cases hch : children.isEmpty with
      | true =>
          have hchn : children = [] := by simpa using hch
          subst hchn
          have hshape : writeNode (.elem name attrs []) ++ rest
              = '<' :: (name ++ ((attrs.map writeAttr).flatten ++ '/' :: '>' :: rest)) := by
            simp [writeNode, List.append_assoc]
          rw [hshape]
          rw [show g + 2 = (g + 1) + 1 from rfl]
          have hts := attrsTail_stop attrs ('/' :: '>' :: rest) hwfattrs (Or.inl rfl)
          have hcomm : expectLit "<!--".toList
              ('<' :: (name ++ ((attrs.map writeAttr).flatten ++ '/' :: '>' :: rest)))
              = .error .backtrack := by
            rw [hn, List.cons_append]
            exact comment_open_fails _ hc
          simp only [parseNode_lt, hcomm, parseElement_cons,
            identifier_exact name _ hvn hts.1,
            parseAttrs_exact attrs ('/' :: '>' :: rest) hwfattrs (Or.inl rfl),
            ms0_cons ('>' :: rest) (show isMultispace '/' = false from rfl)]
      | false =>
          have hshape : writeNode (.elem name attrs children) ++ rest
              = '<' :: (name ++ ((attrs.map writeAttr).flatten
                  ++ '>' :: (writeNodes children ++ '<' :: '/' :: (name ++ '>' :: rest)))) := by
            simp [writeNode, hch, List.append_assoc]
          rw [hshape]
          rw [show g + 2 = (g + 1) + 1 from rfl]
          have hts := attrsTail_stop attrs
            ('>' :: (writeNodes children ++ '<' :: '/' :: (name ++ '>' :: rest)))
            hwfattrs (Or.inr rfl)
          have hcomm : expectLit "<!--".toList
              ('<' :: (name ++ ((attrs.map writeAttr).flatten
                ++ '>' :: (writeNodes children ++ '<' :: '/' :: (name ++ '>' :: rest)))))
              = .error .backtrack := by
            rw [hn, List.cons_append]
            exact comment_open_fails _ hc
          have hpn := parseNodes_round children ('<' :: '/' :: (name ++ '>' :: rest)) g
            hwfch hg (Or.inr ⟨name ++ '>' :: rest, rfl⟩) (by simp)
          have hclose : closingTag name (ms0 ('<' :: '/' :: (name ++ '>' :: rest)))
              = .ok ((), rest) := by
            rw [ms0_cons _ (show isMultispace '<' = false from rfl)]
            exact closingTag_exact name rest hvn
          simp only [parseNode_lt, hcomm, parseElement_cons,
            identifier_exact name _ hvn hts.1,
            parseAttrs_exact attrs
              ('>' :: (writeNodes children ++ '<' :: '/' :: (name ++ '>' :: rest)))
              hwfattrs (Or.inr rfl),
            ms0_cons (writeNodes children ++ '<' :: '/' :: (name ++ '>' :: rest))
              (show isMultispace '>' = false from rfl),
            if_neg hnotmem.1, if_neg hnotmem.2, hpn, hclose]

/-- Round trip, a sibling list: the serialization followed by a stopping
continuation (nothing, or a closing tag) re-parses to exactly the list;
when the continuation is empty the list must not end in a text run (the
parser requires a `<` after every text run). -/
theorem parseNodes_round : ∀ (l : List Node) (rest : Str) (fuel : Nat),
    wfList l = true → pSizeL l ≤ fuel →
    (rest = [] ∨ ∃ r', rest = '<' :: '/' :: r') →
    (rest = [] → lastIsText l = false) →
    parseNodes fuel (writeNodes l ++ rest) = .ok (l, rest)
  | [], rest, fuel, _, hfuel, hstop, _ => by
      obtain ⟨f, rfl⟩ : ∃ k, fuel = k + 1 :=
        ⟨fuel - 1, by simp only [pSizeL] at hfuel; omega⟩
      have hf2 : 2 ≤ f := by simp only [pSizeL] at hfuel; omega
      show parseNodes (f+1) (writeNodes [] ++ rest) = .ok ([], rest)
      rw [show writeNodes [] ++ rest = rest from by simp [writeNodes]]
      rw [parseNodes]
      rw [parseNode_stop f hf2 rest hstop]
  | n :: t, rest, fuel, hwf, hfuel, hstop, hlast => by
      simp only [wfList, Bool.and_eq_true] at hwf
      obtain ⟨⟨hwfn, hwft⟩, hadj⟩ := hwf
      obtain ⟨f, rfl⟩ : ∃ k, fuel = k + 1 := by
        refine ⟨fuel - 1, ?_⟩
        have h1 := pSizeN_pos n
        have h2 := pSizeL_ge t
        simp only [pSizeL] at hfuel
        omega
      have hfn : pSizeN n ≤ f := by
        have h2 := pSizeL_ge t
        simp only [pSizeL] at hfuel
        omega
      have hft : pSizeL t ≤ f := by
        have h1 := pSizeN_pos n
        simp only [pSizeL] at hfuel
        omega
      have htext : isText n = true → (writeNodes t ++ rest).head? = some '<' := by
        intro hnt
        cases t with
        | nil =>
            rcases hstop with rfl | ⟨r', rfl⟩
            · exfalso
              have h := hlast rfl
              cases n with
              | text s => simp [lastIsText, isText] at h
              | comment s => simp [isText] at hnt
              | elem a b c => simp [isText] at hnt
            · simp [writeNodes]
        | cons m t2 =>
            have hwfm : wfNode m = true := by
              simp only [wfList, Bool.and_eq_true] at hwft
              exact hwft.1.1
            have hmnt : isText m = false := by
              cases n with
              | text s =>
                  cases m with
                  | text s2 => simp at hadj
                  | comment s2 => rfl
                  | elem a b c => rfl
              | comment s => simp [isText] at hnt
              | elem a b c => simp [isText] at hnt
            obtain ⟨tail, htail⟩ := writeNode_head_lt hwfm hmnt
            rw [show writeNodes (m :: t2) = writeNode m ++ writeNodes t2 from rfl]
            rw [htail]
            rfl
      have hshape : writeNodes (n :: t) ++ rest = writeNode n ++ (writeNodes t ++ rest) := by
        rw [show writeNodes (n :: t) = writeNode n ++ writeNodes t from rfl,
          List.append_assoc]
      rw [hshape, parseNodes]
      rw [parseNode_round n (writeNodes t ++ rest) f hwfn hfn htext]
      have hlen : (writeNodes t ++ rest).length
          < (writeNode n ++ (writeNodes t ++ rest)).length := by
        have hne := writeNode_ne_nil hwfn
        have : 0 < (writeNode n).length := List.length_pos.mpr hne
        simp only [List.length_append]
        omega
      have hlast' : rest = [] → lastIsText t = false := by
        intro hre
        cases t with
        | nil => rfl
        | cons m t2 => exact hlast hre
      simp only [if_pos hlen, parseNodes_round t rest f hwft hft hstop hlast']

end

/-! ### Soundness: what the parser guarantees about its output -/

mutual

/-- No comment node anywhere in the tree. -/
def noCommentN : Node → Bool
  | .comment _ => false
  | .elem _ _ ch => noCommentL ch
  | .text _ => true

/-- `noCommentN` over a list. -/
def noCommentL : List Node → Bool
  | [] => true
  | n :: rest => noCommentN n && noCommentL rest

end

mutual

/-- No raw-text or void tag name anywhere in the tree. -/
def noSpecialN : Node → Bool
  | .elem name _ ch => !specialName name && noSpecialL ch
  | _ => true

/-- `noSpecialN` over a list. -/
def noSpecialL : List Node → Bool
  | [] => true
  | n :: rest => noSpecialN n && noSpecialL rest

end

/-- Is the first node of the list a text run? -/
def headIsText (l : List Node) : Bool :=
  match l with
  | n :: _ => isText n
  | [] => false

theorem identifier_sound {s name r : Str} (h : identifier s = .ok (name, r)) :
    validName name = true := by
  cases s with
  | nil => exact absurd h (by simp [identifier])
  | cons c cs =>
      by_cases hca : rsAlpha c = true
      · rw [show identifier (c :: cs)
            = (if rsAlpha c then takeWhile1 isIdentChar (c :: cs) else .error .backtrack)
            from rfl, if_pos hca] at h
        rw [takeWhile1] at h
        cases htw : (c :: cs).takeWhile isIdentChar with
        | nil => rw [htw] at h; exact absurd h (by simp)
        | cons d ds =>
            rw [htw] at h
            have hname : name = d :: ds := by
              rw [Except.ok.injEq, Prod.mk.injEq] at h
              exact h.1.symm
            have hdc : d = c := by
              rw [List.takeWhile_cons] at htw
              by_cases hic : isIdentChar c = true
              · rw [if_pos hic] at htw
                injection htw with h1 _
                exact h1.symm
              · rw [if_neg hic] at htw
                exact absurd htw (by simp)
            have hmem : ∀ x ∈ d :: ds, isIdentChar x = true := by
              intro x hx
              rw [← htw] at hx
              exact List.mem_takeWhile_imp hx
            subst hname
            simp only [validName, Bool.and_eq_true]
            exact ⟨by rw [hdc]; exact hca, List.all_eq_true.mpr hmem⟩
      · rw [show identifier (c :: cs)
            = (if rsAlpha c then takeWhile1 isIdentChar (c :: cs) else .error .backtrack)
            from rfl, if_neg hca] at h
        exact absurd h (by simp)

theorem scanString_sound : ∀ (s : Str) (last : Char) (v r : Str),
    scanString last s = some (v, r) →
    escOk last v = true ∧ ¬(lastCharD last v = '\\') := by
  intro s
  induction s with
  | nil => intro last v r h; exact absurd h (by simp [scanString])
  | cons c cs ih =>
      intro last v r h
      rw [scanString] at h
      by_cases hcond : (c = '"' && last ≠ '\\') = true
      · rw [if_pos hcond] at h
        simp only [Option.some.injEq, Prod.mk.injEq] at h
        obtain ⟨rfl, rfl⟩ : v = [] ∧ r = cs := ⟨h.1.symm, h.2.symm⟩
        simp only [Bool.and_eq_true, decide_eq_true_eq, bne_iff_ne, ne_eq] at hcond
        exact ⟨rfl, hcond.2⟩
      · rw [if_neg hcond] at h
        cases hrec : scanString c cs with
        | none => rw [hrec] at h; exact absurd h (by simp)
        | some vr =>
            obtain ⟨v', r'⟩ := vr
            rw [hrec] at h
            simp only [Option.map_some', Option.some.injEq, Prod.mk.injEq] at h
            obtain ⟨hv, hr⟩ := h
            have hrec2 := ih c v' r' hrec
            have hv' : v = c :: v' := hv.symm
            subst hv'
            constructor
            · simp only [escOk, Bool.and_eq_true]
              refine ⟨?_, hrec2.1⟩
              simp only [Bool.and_eq_true, not_and_or] at hcond
              rcases hcond with h1 | h1
              · simp only [decide_eq_true_eq] at h1
                simp [h1]
              · simp only [decide_eq_true_eq, ne_eq, not_not] at h1
                simp [h1]
            · cases v' with
              | nil => exact hrec2.2
              | cons d u =>
                  have heq : lastCharD last (c :: d :: u) = lastCharD c (d :: u) := by
                    have h1 : lastCharD last (c :: d :: u) = lastCharD last (d :: u) := by
                      simp [lastCharD, List.getLast?_cons_cons]
                    rw [h1]
                    exact lastCharD_of_ne (by simp) last c
                  rw [heq]
                  exact hrec2.2

theorem parseString_sound {s v r : Str} (h : parseString s = .ok (v, r)) :
    wfValue v = true := by
  cases s with
  | nil => exact absurd h (by simp [parseString])
  | cons c cs =>
      by_cases hc : c = '"'
      · subst hc
        rw [show parseString ('"' :: cs)
            = (match scanString '"' cs with
               | some (a, b) => (Except.ok (a, b) : PRes Str)
               | none => Except.error PErr.cut) from rfl] at h
        cases hscan : scanString '"' cs with
        | none => rw [hscan] at h; exact absurd h (by simp)
        | some vr =>
            obtain ⟨v', r'⟩ := vr
            rw [hscan] at h
            simp only [Except.ok.injEq, Prod.mk.injEq] at h
            have hv := h.1
            have hr := h.2
            subst hv
            subst hr
            have hsc := scanString_sound cs '"' v' r' hscan
            simp only [wfValue, Bool.and_eq_true]
            exact ⟨hsc.1, by simpa using hsc.2⟩
      · have : parseString (c :: cs) = .error .backtrack := by
          rw [parseString.eq_def]
          split
          · rename_i heq
            injection heq with h1 _
            exact absurd h1 hc
          · rfl
        rw [this] at h
        exact absurd h (by simp)

theorem parseAttr_sound {s : Str} {a : Attr} {r : Str} (h : parseAttr s = .ok (a, r)) :
    wfAttr a = true := by
  rw [parseAttr] at h
  cases hid : identifier s with
  | error e => rw [hid] at h; exact absurd h (by simp)
  | ok nr =>
      obtain ⟨name, s1⟩ := nr
      rw [hid] at h
      have hvn := identifier_sound hid
      simp only at h
      split at h
      case h_1 s3 heq =>
          cases hps : parseString (ms0 s3) with
          | ok vr =>
              obtain ⟨v, s4⟩ := vr
              rw [hps] at h
              simp only [Except.ok.injEq, Prod.mk.injEq] at h
              rw [← h.1]
              simp only [wfAttr, Bool.and_eq_true]
              exact ⟨hvn, parseString_sound hps⟩
          | error e =>
              rw [hps] at h
              cases e with
              | cut => exact absurd h (by simp)
              | backtrack =>
                  simp only [Except.ok.injEq, Prod.mk.injEq] at h
                  rw [← h.1]
                  simp [wfAttr, hvn]
      case h_2 =>
          simp only [Except.ok.injEq, Prod.mk.injEq] at h
          rw [← h.1]
          simp [wfAttr, hvn]

theorem parseAttrs_sound : ∀ (bound : Nat) (s : Str), s.length ≤ bound →
    ∀ (attrs : List Attr) (r : Str), parseAttrs s = .ok (attrs, r) →
    attrs.all wfAttr = true := by
  intro bound
  induction bound with
  | zero =>
      intro s hlen attrs r h
      rw [parseAttrs_eq] at h
      split at h
      next a r1 heq =>
          rw [dif_neg (by omega)] at h
          exact absurd h (by simp)
      next => simp only [Except.ok.injEq, Prod.mk.injEq] at h; rw [← h.1]; rfl
      next => exact absurd h (by simp)
  | succ N ih =>
      intro s hlen attrs r h
      rw [parseAttrs_eq] at h
      split at h
      next a r1 heq =>
          by_cases hl : r1.length < s.length
          · rw [dif_pos hl] at h
            split at h
            next as2 r' heq2 =>
                simp only [Except.ok.injEq, Prod.mk.injEq] at h
                rw [← h.1]
                simp only [List.all_cons, Bool.and_eq_true]
                exact ⟨parseAttr_sound heq, ih r1 (by omega) as2 r' heq2⟩
            next => exact absurd h (by simp)
          · rw [dif_neg hl] at h
            exact absurd h (by simp)
      next => simp only [Except.ok.injEq, Prod.mk.injEq] at h; rw [← h.1]; rfl
      next => exact absurd h (by simp)

theorem dropWhile_head_not {p : Char → Bool} : ∀ (l : Str) (c : Char) (cs : Str),
    l.dropWhile p = c :: cs → p c = false := by
  intro l
  induction l with
  | nil => intro c cs h; exact absurd h (by simp)
  | cons a t ih =>
      intro c cs h
      rw [List.dropWhile_cons] at h
      by_cases hp : p a = true
      · rw [if_pos hp] at h
        exact ih c cs h
      · rw [if_neg hp] at h
        injection h with h1 _
        rw [← h1]
        simpa using hp

theorem takeUntilLt_sound {s t r : Str} (h : takeUntilLt s = .ok (t, r)) :
    (!t.isEmpty && t.all (fun c => !(c = '<'))) = true ∧ ∃ r', r = '<' :: r' := by
  simp only [takeUntilLt] at h
  by_cases h1 : (s.takeWhile (fun c => c ≠ '<')).length = s.length
  · rw [if_pos h1] at h; exact absurd h (by simp)
  · rw [if_neg h1] at h
    by_cases h2 : (s.takeWhile (fun c => c ≠ '<')).isEmpty = true
    · rw [if_pos h2] at h; exact absurd h (by simp)
    · rw [if_neg h2] at h
      simp only [Except.ok.injEq, Prod.mk.injEq] at h
      obtain ⟨rfl, rfl⟩ : s.takeWhile (fun c => c ≠ '<') = t
          ∧ s.drop (s.takeWhile (fun c => c ≠ '<')).length = r := h
      refine ⟨?_, ?_⟩
      · simp only [Bool.and_eq_true]
        refine ⟨by simpa using h2, List.all_eq_true.mpr ?_⟩
        intro x hx
        have := List.mem_takeWhile_imp hx
        simpa using this
      · have hdrop : s.drop (s.takeWhile (fun c => c ≠ '<')).length
            = s.dropWhile (fun c => c ≠ '<') := by
          have h2 : ∀ (T D : Str), T ++ D = s → s.drop T.length = D := by
            intro T D hTD
            rw [← hTD, List.drop_left]
          exact h2 _ _ (List.takeWhile_append_dropWhile (fun c => decide (c ≠ '<')) s)
        rw [hdrop]
        cases hdw : s.dropWhile (fun c => c ≠ '<') with
        | nil =>
            exfalso
            apply h1
            have hsplit := List.takeWhile_append_dropWhile (fun c => decide (c ≠ '<')) s
            rw [hdw, List.append_nil] at hsplit
            rw [hsplit]
        | cons c cs =>
            have := dropWhile_head_not s c cs hdw
            simp only [decide_eq_false_iff_not, not_not] at this
            exact ⟨cs, by rw [this]⟩

mutual

/-- What the parser guarantees about one node it produces: text runs are
nonempty and `<`-free, comments are unconstrained (the serializer drops
them), raw-text and void elements carry a valid head but an unconstrained
body, and every other element satisfies the invariant recursively. -/
def okN : Node → Bool
  | .text t => !t.isEmpty && t.all (fun c => !(c = '<'))
  | .comment _ => true
  | .elem name attrs ch =>
      validName name && attrs.all wfAttr && (specialName name || okL ch)

/-- `okN` over a sibling list, with no two adjacent text runs. -/
def okL : List Node → Bool
  | [] => true
  | n :: rest =>
      okN n && okL rest &&
      (match n, rest with
       | .text _, .text _ :: _ => false
       | _, _ => true)

end

mutual

/-- On the comment-free, special-tag-free fragment, the parser guarantee
`okN` is exactly the parse-shape invariant `wfNode`. -/
theorem ok_wf_N : ∀ (n : Node), noCommentN n = true → noSpecialN n = true →
    okN n = true → wfNode n = true
  | .text _, _, _, hok => hok
  | .comment _, hnc, _, _ => by simp [noCommentN] at hnc
  | .elem name attrs ch, hnc, hns, hok => by
      simp only [noCommentN] at hnc
      simp only [noSpecialN, Bool.and_eq_true] at hns
      simp only [okN, Bool.and_eq_true, Bool.or_eq_true] at hok
      simp only [wfNode, Bool.and_eq_true]
      refine ⟨⟨⟨hok.1.1, hns.1⟩, hok.1.2⟩, ?_⟩
      rcases hok.2 with hsp | hokl
      · rw [hsp] at hns
        exact absurd hns.1 (by simp)
      · exact ok_wf_L ch hnc hns.2 hokl

/-- `ok_wf_N` over a list. -/
theorem ok_wf_L : ∀ (l : List Node), noCommentL l = true → noSpecialL l = true →
    okL l = true → wfList l = true
  | [], _, _, _ => rfl
  | n :: rest, hnc, hns, hok => by
      simp only [noCommentL, Bool.and_eq_true] at hnc
      simp only [noSpecialL, Bool.and_eq_true] at hns
      simp only [okL, Bool.and_eq_true] at hok
      have h1 : wfNode n = true := ok_wf_N n hnc.1 hns.1 hok.1.1
      have h2 : wfList rest = true := ok_wf_L rest hnc.2 hns.2 hok.1.2
      rw [wfList, h1, h2]
      simp only [Bool.true_and]
      intro a b tail hn hrest2
      subst hn
      subst hrest2
      exact Bool.noConfusion hok.2

end

/-- A raw-text tag name is special. -/
theorem mem_raw_special {name : Str} (h : name ∈ rawNames) : specialName name = true := by
  simp only [specialName, Bool.or_eq_true]
  exact Or.inl (by simpa using List.elem_eq_true_of_mem h)

/-- Unfolding of the node grammar at positive fuel on a nonempty input. -/
theorem parseNode_cons (f : Nat) (c : Char) (cs : Str) :
    parseNode (f+1) (c :: cs) =
      (if c = '<' then
        match expectLit "<!--".toList (c :: cs) with
        | .ok (_, s1) =>
            match advanceTo (expectLit "-->".toList) '-' s1 with
            | .ok (t, _, r) => .ok (.comment t, r)
            | .error _ => .error .cut
        | .error _ => parseElement f (c :: cs)
      else
        match takeUntilLt (c :: cs) with
        | .ok (t, r) => .ok (.text t, r)
        | .error e => .error e) := rfl

/-- The element grammar refuses an input that does not open with `<`. -/
theorem parseElement_not_lt (g : Nat) {c : Char} (hc : ¬ c = '<') (s0 : Str) :
    parseElement (g+1) (c :: s0) = .error .backtrack := by
  rw [parseElement.eq_def]
  split
  · rename_i heq
    exact absurd heq (by omega)
  · split
    · rename_i heq
      injection heq with h1 _
      exact absurd h1 hc
    · rfl

/-- Soundness of the three mutually recursive grammars, by induction on
fuel: every produced node satisfies `okN`; a text run is produced exactly
when the input does not open with `<` and leaves a `<`-headed remainder;
and a produced sibling list satisfies `okL`, with the boundary facts
needed to chain consecutive runs. -/
theorem parse_sound (fuel : Nat) :
    (∀ s n r, parseNode fuel s = .ok (n, r) →
        okN n = true ∧
        (isText n = true → s.head? ≠ some '<' ∧ r.head? = some '<') ∧
        (isText n = false → s.head? = some '<')) ∧
    (∀ s n r, parseElement fuel s = .ok (n, r) → okN n = true ∧ isText n = false) ∧
    (∀ s l r, parseNodes fuel s = .ok (l, r) →
        okL l = true ∧
        (headIsText l = true → s.head? ≠ some '<') ∧
        (lastIsText l = true → r.head? = some '<') ∧
        (l = [] → r = s)) := by
  induction fuel with
  | zero =>
      refine ⟨?_, ?_, ?_⟩
      · intro s n r h; exact absurd h (by simp [parseNode])
      · intro s n r h; exact absurd h (by simp [parseElement])
      · intro s l r h; exact absurd h (by simp [parseNodes])
  | succ f ih =>
      obtain ⟨ihN, ihE, ihL⟩ := ih
      refine ⟨?_, ?_, ?_⟩
      · -- the node grammar
        intro s n r h
        cases s with
        | nil => rw [parseNode] at h; exact absurd h (by simp)
        | cons c cs =>
            by_cases hc : c = '<'
            · subst hc
              rw [parseNode_lt] at h
              cases hcm : expectLit "<!--".toList ('<' :: cs) with
              | ok us1 =>
                  obtain ⟨u, s1⟩ := us1
                  simp only [hcm] at h
                  cases hadv : advanceTo (expectLit "-->".toList) '-' s1 with
                  | ok tor =>
                      obtain ⟨t, o, r2⟩ := tor
                      simp only [hadv, Except.ok.injEq, Prod.mk.injEq] at h
                      obtain ⟨hn, hr⟩ := h
                      subst hn
                      subst hr
                      refine ⟨rfl, ?_, fun _ => rfl⟩
                      intro hti; simp [isText] at hti
                  | error e => simp only [hadv] at h; exact absurd h (by simp)
              | error e =>
                  simp only [hcm] at h
                  obtain ⟨hokn, hnt⟩ := ihE ('<' :: cs) n r h
                  refine ⟨hokn, ?_, fun _ => rfl⟩
                  intro hti
                  rw [hnt] at hti
                  exact absurd hti (by simp)
            · rw [parseNode_cons, if_neg hc] at h
              cases htu : takeUntilLt (c :: cs) with
              | ok tr =>
                  obtain ⟨t, r2⟩ := tr
                  simp only [htu, Except.ok.injEq, Prod.mk.injEq] at h
                  obtain ⟨hn, hr⟩ := h
                  subst hn
                  subst hr
                  have hts := takeUntilLt_sound htu
                  refine ⟨hts.1, ?_, ?_⟩
                  · intro _
                    refine ⟨by simpa using hc, ?_⟩
                    obtain ⟨r0, hr0⟩ := hts.2
                    rw [hr0]; rfl
                  · intro hti; simp [isText] at hti
              | error e => simp only [htu] at h; exact absurd h (by simp)
      · -- the element grammar
        intro s n r h
        cases s with
        | nil =>
            have hne : parseElement (f+1) ([] : Str) = .error .backtrack := rfl
            rw [hne] at h; exact absurd h (by simp)
        | cons c s0 =>
            by_cases hc : c = '<'
            · subst hc
              rw [parseElement_cons] at h
              cases hid : identifier s0 with
              | error e => simp only [hid] at h; exact absurd h (by simp)
              | ok ns1 =>
                  obtain ⟨name, s1⟩ := ns1
                  simp only [hid] at h
                  have hvn := identifier_sound hid
                  cases hattrs : parseAttrs s1 with
                  | error e => simp only [hattrs] at h; exact absurd h (by simp)
                  | ok ar =>
                      obtain ⟨attrs, s2⟩ := ar
                      simp only [hattrs] at h
                      have hwa := parseAttrs_sound s1.length s1 (Nat.le_refl _) attrs s2 hattrs
                      split at h
                      next s3 heq =>
                          simp only [Except.ok.injEq, Prod.mk.injEq] at h
                          obtain ⟨hn, hr⟩ := h
                          subst hn
                          refine ⟨?_, rfl⟩
                          simp only [okN, Bool.and_eq_true, Bool.or_eq_true]
                          exact ⟨⟨hvn, hwa⟩, Or.inr rfl⟩
                      next s3 heq =>
                          by_cases hraw : name ∈ rawNames
                          · rw [if_pos hraw] at h
                            cases hadv : advanceTo (closingTag name) '<' s3 with
                            | ok tor =>
                                obtain ⟨t, o, r2⟩ := tor
                                simp only [hadv, Except.ok.injEq, Prod.mk.injEq] at h
                                obtain ⟨hn, hr⟩ := h
                                subst hn
                                refine ⟨?_, rfl⟩
                                simp only [okN, Bool.and_eq_true, Bool.or_eq_true]
                                exact ⟨⟨hvn, hwa⟩, Or.inl (mem_raw_special hraw)⟩
                            | error e => simp only [hadv] at h; exact absurd h (by simp)
                          · rw [if_neg hraw] at h
                            by_cases hvoid : name ∈ voidNames
                            · rw [if_pos hvoid] at h
                              simp only [Except.ok.injEq, Prod.mk.injEq] at h
                              obtain ⟨hn, hr⟩ := h
                              subst hn
                              refine ⟨?_, rfl⟩
                              simp only [okN, Bool.and_eq_true, Bool.or_eq_true]
                              exact ⟨⟨hvn, hwa⟩, Or.inr rfl⟩
                            · rw [if_neg hvoid] at h
                              cases hch : parseNodes f s3 with
                              | error e => simp only [hch] at h; exact absurd h (by simp)
                              | ok chr =>
                                  obtain ⟨children, s4⟩ := chr
                                  simp only [hch] at h
                                  have hokch := (ihL s3 children s4 hch).1
                                  cases hct : closingTag name (ms0 s4) with
                                  | ok us5 =>
                                      obtain ⟨u, s5⟩ := us5
                                      simp only [hct, Except.ok.injEq, Prod.mk.injEq] at h
                                      obtain ⟨hn, hr⟩ := h
                                      subst hn
                                      refine ⟨?_, rfl⟩
                                      simp only [okN, Bool.and_eq_true, Bool.or_eq_true]
                                      exact ⟨⟨hvn, hwa⟩, Or.inr hokch⟩
                                  | error e => simp only [hct] at h; exact absurd h (by simp)
                      next heq =>
                          exact absurd h (by simp)
            · rw [parseElement_not_lt f hc s0] at h
              exact absurd h (by simp)
      · -- the repetition
        intro s l r h
        rw [parseNodes] at h
        cases hpn : parseNode f s with
        | error e =>
            cases e with
            | backtrack =>
                simp only [hpn, Except.ok.injEq, Prod.mk.injEq] at h
                obtain ⟨hl, hr⟩ := h
                subst hl
                subst hr
                refine ⟨rfl, ?_, ?_, fun _ => rfl⟩
                · intro hh; simp [headIsText] at hh
                · intro hh; simp [lastIsText] at hh
            | cut => simp only [hpn] at h; exact absurd h (by simp)
        | ok nr1 =>
            obtain ⟨n, r1⟩ := nr1
            simp only [hpn] at h
            by_cases hlen : r1.length < s.length
            · rw [if_pos hlen] at h
              cases hrest : parseNodes f r1 with
              | error e => simp only [hrest] at h; exact absurd h (by simp)
              | ok nsr =>
                  obtain ⟨ns, r2⟩ := nsr
                  simp only [hrest, Except.ok.injEq, Prod.mk.injEq] at h
                  obtain ⟨hl, hr⟩ := h
                  subst hl
                  subst hr
                  obtain ⟨hokn, htext, hnot⟩ := ihN s n r1 hpn
                  obtain ⟨hokl, hhead, hlast, hnil⟩ := ihL r1 ns r2 hrest
                  refine ⟨?_, ?_, ?_, ?_⟩
                  · rw [okL, hokn, hokl]
                    simp only [Bool.true_and]
                    intro a b tail hn hns2
                    subst hn
                    subst hns2
                    exact absurd (htext rfl).2 (hhead rfl)
                  · intro hh
                    exact (htext hh).1
                  · intro hlt
                    cases ns with
                    | nil =>
                        rw [hnil rfl]
                        exact (htext hlt).2
                    | cons m ms =>
                        exact hlast hlt
                  · intro hx; exact absurd hx (by simp)
            · rw [if_neg hlen] at h
              exact absurd h (by simp)

/-- What a successful whole-document parse guarantees: the tree satisfies
the parser invariant `okL`, and it does not end in a top-level text run
(a text run only succeeds by stopping at a following `<`, and the whole
input must be consumed). -/
theorem documentNew_sound {fuel : Nat} {s : Str} {t : List Node}
    (h : documentNew fuel s = .ok t) :
    okL t = true ∧ lastIsText t = false := by
  rw [documentNew] at h
  cases hpn : parseNodes fuel s with
  | error e => simp only [hpn] at h; exact absurd h (by simp)
  | ok lr =>
      obtain ⟨ns, r⟩ := lr
      cases r with
      | nil =>
          simp only [hpn] at h
          have hns : ns = t := by
            simp only [Except.ok.injEq] at h
            exact h
          subst hns
          obtain ⟨hok, _, hlast, _⟩ := (parse_sound fuel).2.2 s ns [] hpn
          refine ⟨hok, ?_⟩
          cases hl : lastIsText ns with
          | false => rfl
          | true => exact absurd (hlast hl) (by simp)
      | cons c r2 =>
          simp only [hpn] at h
          exact absurd h (by simp)

/-- C4: counterexample — the serializer drops comment nodes, so the
parse–serialize–re-parse round trip loses them.  Parsing
`<!--c--><p/>` yields a two-node tree (a comment and an element); its
serialization is just `<p/>`, which re-parses to a one-node tree.  The
trees differ in node count, not merely in text-run whitespace, although
the claim includes comments in the round trip. -/
theorem C4_roundtrip_counterexample :
    documentNew 12 "<!--c--><p/>".toList
      = .ok [Node.comment ['c'], Node.elem ['p'] [] []] ∧
    writeNodes [Node.comment ['c'], Node.elem ['p'] [] []] = "<p/>".toList ∧
    documentNew 12 "<p/>".toList = .ok [Node.elem ['p'] [] []] ∧
    List.length [Node.comment ['c'], Node.elem ['p'] [] []]
      ≠ List.length [Node.elem ['p'] [] []] :=
  ⟨by decide, by decide, by decide, by decide⟩

/-- C4 (amended): for a successfully parsed document whose tree is free of
comments and of raw-text/void tags, serializing the unmodified tree and
re-parsing its output (with the tree's own parser fuel budget) reproduces
the tree exactly — not merely up to whitespace.  The unamended claim
fails because the serializer drops comments. -/
theorem C4_roundtrip_amended {fuel : Nat} {s : Str} {t : List Node}
    (h : documentNew fuel s = .ok t)
    (hnc : noCommentL t = true) (hns : noSpecialL t = true) :
    documentNew (pSizeL t) (writeNodes t) = .ok t := by
  obtain ⟨hok, hlast⟩ := documentNew_sound h
  have hwf : wfList t = true := ok_wf_L t hnc hns hok
  have hround := parseNodes_round t [] (pSizeL t) hwf (Nat.le_refl _) (Or.inl rfl)
      (fun _ => hlast)
  rw [List.append_nil] at hround
  rw [documentNew]
  simp only [hround]

/-- What `advance_to` guarantees on success: the returned prefix is a
verbatim prefix of the input, the remainder starts at an occurrence of the
hint character where the inner grammar succeeds, and at every earlier
occurrence of the hint inside the prefix the inner grammar fails. -/
theorem advanceTo_sound {α : Type} (p : Str → PRes α) (hint : Char) :
    ∀ (s pre : Str) (o : α) (r : Str), advanceTo p hint s = .ok (pre, o, r) →
    ∃ suf, s = pre ++ suf ∧ suf.head? = some hint ∧ p suf = .ok (o, r) ∧
      ∀ i (hi : i < pre.length), pre.get ⟨i, hi⟩ = hint →
        ∃ e, p (pre.drop i ++ suf) = .error e := by
  intro s
  induction s with
  | nil => intro pre o r h; exact absurd h (by simp [advanceTo])
  | cons c rest ih =>
      intro pre o r h
      rw [advanceTo] at h
      by_cases hc : c = hint
      · rw [if_pos hc] at h
        cases hp : p (c :: rest) with
        | ok or2 =>
            obtain ⟨o2, r2⟩ := or2
            simp only [hp, Except.ok.injEq, Prod.mk.injEq] at h
            obtain ⟨hpre, ho, hr⟩ := h
            subst hpre; subst ho; subst hr
            refine ⟨c :: rest, rfl, by rw [hc]; rfl, hp, ?_⟩
            intro i hi
            simp at hi
        | error e0 =>
            simp only [hp] at h
            cases hadv : advanceTo p hint rest with
            | ok por =>
                obtain ⟨pre2, o2, r2⟩ := por
                simp only [hadv, Except.ok.injEq, Prod.mk.injEq] at h
                obtain ⟨hpre, ho, hr⟩ := h
                subst ho; subst hr
                obtain ⟨suf, hsuf, hhead, hps, hall⟩ := ih pre2 o2 r2 hadv
                subst hpre
                refine ⟨suf, by rw [hsuf]; rfl, hhead, hps, ?_⟩
                intro i hi hget
                cases i with
                | zero =>
                    refine ⟨e0, ?_⟩
                    show p (c :: (pre2 ++ suf)) = .error e0
                    rw [← hsuf]
                    exact hp
                | succ j =>
                    exact hall j (Nat.lt_of_succ_lt_succ hi) hget
            | error e => simp only [hadv] at h; exact absurd h (by simp)
      · rw [if_neg hc] at h
        cases hadv : advanceTo p hint rest with
        | ok por =>
            obtain ⟨pre2, o2, r2⟩ := por
            simp only [hadv, Except.ok.injEq, Prod.mk.injEq] at h
            obtain ⟨hpre, ho, hr⟩ := h
            subst ho; subst hr
            obtain ⟨suf, hsuf, hhead, hps, hall⟩ := ih pre2 o2 r2 hadv
            subst hpre
            refine ⟨suf, by rw [hsuf]; rfl, hhead, hps, ?_⟩
            intro i hi hget
            cases i with
            | zero => exact absurd hget hc
            | succ j => exact hall j (Nat.lt_of_succ_lt_succ hi) hget
        | error e => simp only [hadv] at h; exact absurd h (by simp)

/-- The amended C4 round trip exercised on the document `<p>hi</p>`. -/
theorem C4_roundtrip_amended_witness :
    documentNew (pSizeL [Node.elem ['p'] [] [Node.text ['h','i']]])
      (writeNodes [Node.elem ['p'] [] [Node.text ['h','i']]])
      = .ok [Node.elem ['p'] [] [Node.text ['h','i']]] :=
  @C4_roundtrip_amended 12 ("<p>hi</p>".toList)
    [Node.elem ['p'] [] [Node.text ['h','i']]]
    (by decide) (by decide) (by decide)

/-- C5: parsing `<script>let x = 1 < 2;</script>` with the element grammar
succeeds, producing a `script` element whose single text child is exactly
`let x = 1 < 2;` — the embedded `<` is not mistaken for a new tag; and in
general, a raw-text (`script`/`style`) element's body is the verbatim
input up to the first syntactically valid matching closing tag: the body
is a literal prefix of the post-`>` input, the remainder begins at a `<`
where the closing tag parses, and at every earlier `<` inside the body
the closing-tag grammar fails. -/
theorem C5_raw_text_verbatim :
    (parseElement 1 "<script>let x = 1 < 2;</script>".toList
      = .ok (.elem "script".toList [] [.text "let x = 1 < 2;".toList], [])) ∧
    ∀ (fuel : Nat) (s0 name s1 : Str) (attrs : List Attr) (s2 s3 : Str)
      (n : Node) (r : Str),
      identifier s0 = .ok (name, s1) →
      parseAttrs s1 = .ok (attrs, s2) →
      ms0 s2 = '>' :: s3 →
      name ∈ rawNames →
      parseElement (fuel+1) ('<' :: s0) = .ok (n, r) →
      ∃ t suf, n = .elem name attrs [.text t] ∧ s3 = t ++ suf ∧
        suf.head? = some '<' ∧ closingTag name suf = .ok ((), r) ∧
        ∀ i (hi : i < t.length), t.get ⟨i, hi⟩ = '<' →
          ∃ e, closingTag name (t.drop i ++ suf) = .error e := by
  refine ⟨by decide, ?_⟩
  intro fuel s0 name s1 attrs s2 s3 n r hid hattrs hms hraw h
  rw [parseElement_cons] at h
  simp only [hid, hattrs, hms] at h
  rw [if_pos hraw] at h
  cases hadv : advanceTo (closingTag name) '<' s3 with
  | ok tor =>
      obtain ⟨t, o, r2⟩ := tor
      simp only [hadv, Except.ok.injEq, Prod.mk.injEq] at h
      obtain ⟨hn, hr⟩ := h
      subst hr
      obtain ⟨suf, hsuf, hhead, hct, hall⟩ :=
        advanceTo_sound (closingTag name) '<' s3 t o r2 hadv
      refine ⟨t, suf, ?_, hsuf, hhead, ?_, hall⟩
      · rw [← hn]
      · cases o
        exact hct
  | error e => simp only [hadv] at h; exact absurd h (by simp)

/-- The general raw-text clause of C5 exercised on `<script>1<2</script>`:
the literal `<` inside the body is skipped because no valid closing tag
parses there, and the body is the verbatim `1<2`. -/
theorem C5_raw_text_verbatim_witness :
    ∃ t suf, (Node.elem "script".toList [] [Node.text "1<2".toList])
        = Node.elem "script".toList [] [Node.text t] ∧
      "1<2</script>".toList = t ++ suf ∧ suf.head? = some '<' ∧
      closingTag "script".toList suf = .ok ((), []) ∧
      ∀ i (hi : i < t.length), t.get ⟨i, hi⟩ = '<' →
        ∃ e, closingTag "script".toList (t.drop i ++ suf) = .error e :=
  C5_raw_text_verbatim.2 0 "script>1<2</script>".toList "script".toList
    ">1<2</script>".toList [] ">1<2</script>".toList "1<2</script>".toList
    (Node.elem "script".toList [] [Node.text "1<2".toList]) []
    (by decide) (by decide) (by decide) (by decide) (by decide)

/-- C8: an element opened with `>` whose tag name is neither raw-text nor
void and whose child list parses but whose matching closing tag is absent
fails with a fatal (cut, non-backtrackable) error; the cut propagates
through the node grammar and the repetition, so the whole-document parse
returns an error and no partial tree. -/
theorem C8_missing_closing_cut {fuel : Nat} {s0 name s1 : Str} {attrs : List Attr}
    {s2 s3 : Str} {children : List Node} {s4 : Str}
    (hid : identifier s0 = .ok (name, s1))
    (hattrs : parseAttrs s1 = .ok (attrs, s2))
    (hms : ms0 s2 = '>' :: s3)
    (hraw : ¬ name ∈ rawNames) (hvoid : ¬ name ∈ voidNames)
    (hch : parseNodes fuel s3 = .ok (children, s4))
    (hclose : ∃ e, closingTag name (ms0 s4) = .error e) :
    parseElement (fuel+1) ('<' :: s0) = .error .cut ∧
    parseNode (fuel+2) ('<' :: s0) = .error .cut ∧
    documentNew (fuel+3) ('<' :: s0) = .error .cut := by
  obtain ⟨e, he⟩ := hclose
  have h1 : parseElement (fuel+1) ('<' :: s0) = .error .cut := by
    rw [parseElement_cons]
    simp only [hid, hattrs, hms]
    rw [if_neg hraw, if_neg hvoid]
    simp only [hch, he]
  obtain ⟨c, s0', rfl, hca⟩ : ∃ c s0', s0 = c :: s0' ∧ rsAlpha c = true := by
    cases s0 with
    | nil => exact absurd hid (by simp [identifier])
    | cons c s0' =>
        refine ⟨c, s0', rfl, ?_⟩
        by_cases hca : rsAlpha c = true
        · exact hca
        · rw [show identifier (c :: s0')
              = (if rsAlpha c then takeWhile1 isIdentChar (c :: s0')
                 else .error .backtrack) from rfl, if_neg hca] at hid
          exact absurd hid (by simp)
  have h2 : parseNode (fuel+2) ('<' :: c :: s0') = .error .cut := by
    rw [parseNode_lt]
    simp only [comment_open_fails s0' hca]
    exact h1
  have h3 : parseNodes (fuel+3) ('<' :: c :: s0') = .error .cut := by
    rw [parseNodes]
    simp only [h2]
  refine ⟨h1, h2, ?_⟩
  rw [documentNew]
  simp only [h3]

/-- C8 exercised on the unterminated `<div>`: the element, node and
whole-document grammars all return the fatal cut error; no tree comes
back. -/
theorem C8_missing_closing_cut_witness :
    parseElement 3 "<div>".toList = .error .cut ∧
    parseNode 4 "<div>".toList = .error .cut ∧
    documentNew 5 "<div>".toList = .error .cut :=
  @C8_missing_closing_cut 2 "div>".toList "div".toList ">".toList []
    ">".toList [] [] []
    (by decide) (by decide) (by decide) (by decide) (by decide) (by decide)
    ⟨.backtrack, by decide⟩

end Corvusite
